import Mathlib

/-!
# Cipher.c: Caesar and Vigenere transforms over a linked character sequence

A shallow embedding of `src/Cipher.c`.

* A `char` value is an `Int`.  Every value the transforms store lies in `[40, 122]`, so the
  conversion from `int` back to `char` on assignment never changes a value.
* A string (`LETTER *`) is a header cell, the character cells, and a trailer cell holding
  `'\0'`.  It is modelled by the list of its character cells (`List Int`); the trailer is the
  end of the list.  A character cell may itself hold `'\0'` (a NUL byte read from the input):
  every traversal `while (current_letter->character != '\0')` stops there, exactly as in C.
* A pointer into the key, which the cipher engine never writes, is the list of cells from the
  pointed cell on; `[]` is the trailer.
* `int` arithmetic on the rotation wraps at 32 bits (`int_wrap`); `%` is C's truncating
  remainder (`Int.tmod`).
* `isalpha` and `tolower` are the C library's, in the "C" locale (the program never calls
  `setlocale`).
* The key-skipping loop of the Vigenere functions need not terminate: it takes a bound on the
  number of its loop tests and the transform returns `none` when the bound is exhausted.
* `create_string`, `get_string` and `get_key` work on the chain that starts at the header
  cell, reading from an input stream given as the list of characters still to come.
* Namespace `Mem` embeds the two Vigenere functions a second time, over a memory of cells
  with addresses, to state which cells they write.
-/

namespace Cipher

/-! ## Constants -/

def UPPER : Int := 117
def LOWER : Int := 108
def NEITHER : Int := 110
def LOWER_INT : Int := 97
def UPPER_INT : Int := 65

/-! ## C library and machine arithmetic -/

/-- The value of a 32-bit `int` holding the mathematical result `x` (two's complement). -/
def int_wrap (x : Int) : Int := (x + 2147483648) % 4294967296 - 2147483648

/-- C library `isalpha` in the "C" locale. -/
def isalpha (c : Int) : Bool := (65 ≤ c && c ≤ 90) || (97 ≤ c && c ≤ 122)

/-- C library `tolower` in the "C" locale. -/
def tolower (c : Int) : Int := if 65 ≤ c ∧ c ≤ 90 then c + 32 else c

/-- The character cells of a string typed at the prompt. -/
def cells (s : String) : List Int := s.toList.map (fun ch => Int.ofNat ch.toNat)

/-! ## Helper predicates of the source -/

/-- Source `test_character`: `LOWER` for `'a'..'z'`, `UPPER` for `'A'..'Z'`, else `NEITHER`. -/
def test_character (check : Int) : Int :=
  if 97 ≤ check ∧ check ≤ 122 then LOWER
  else if 65 ≤ check ∧ check ≤ 90 then UPPER
  else NEITHER

/-- Source `to_lower`: lowercases every cell up to the first `'\0'`. -/
def to_lower : List Int → List Int
  | [] => []
  | c :: rest => if c = 0 then c :: rest else tolower c :: to_lower rest

/-- Source `print_string`: the characters rendered, i.e. the cells before the first `'\0'`. -/
def print_string : List Int → List Int
  | [] => []
  | c :: rest => if c = 0 then [] else c :: print_string rest

/-! ## Caesar cipher -/

/-- Source `encode_caesar_cipher`. -/
def encode_caesar_cipher : List Int → Int → List Int
  | [], _ => []
  | c :: rest, rotation =>
    if c = 0 then c :: rest
    else if test_character c = UPPER then
      ((int_wrap (c - UPPER_INT + rotation)).tmod 26 + UPPER_INT) ::
        encode_caesar_cipher rest rotation
    else if test_character c = LOWER then
      ((int_wrap (c - LOWER_INT + rotation)).tmod 26 + LOWER_INT) ::
        encode_caesar_cipher rest rotation
    else c :: encode_caesar_cipher rest rotation

/-- Source `decode_caesar_cipher`. -/
def decode_caesar_cipher : List Int → Int → List Int
  | [], _ => []
  | c :: rest, rotation =>
    if c = 0 then c :: rest
    else if test_character c = UPPER then
      ((int_wrap (int_wrap (c - UPPER_INT - rotation) + 26)).tmod 26 + UPPER_INT) ::
        decode_caesar_cipher rest rotation
    else if test_character c = LOWER then
      ((int_wrap (int_wrap (c - LOWER_INT - rotation) + 26)).tmod 26 + LOWER_INT) ::
        decode_caesar_cipher rest rotation
    else c :: decode_caesar_cipher rest rotation

/-! ## Vigenere cipher -/

/-- The field `character` of the cell a key pointer points to (`'\0'` at the trailer). -/
def character (cell : List Int) : Int := cell.headD 0

/-- The field `next_character` of the cell a key pointer points to. -/
def next_character (cell : List Int) : List Int := cell.tail

/-- The key-skipping loop `while (!isalpha(key_cycler->character))` of both Vigenere
functions.  `fuel` bounds the number of loop tests; `none` means the bound was reached with
the loop still running. -/
def cycle_key (key : List Int) : Nat → List Int → Option (List Int)
  | 0, _ => none
  | fuel + 1, key_cycler =>
    if isalpha (character key_cycler) then some key_cycler
    else if character key_cycler = 0 then cycle_key key fuel key
    else cycle_key key fuel (next_character key_cycler)

/-- The loops of source `encode_vigenere_cipher`, from the cell `current_letter` points to.
`inner = false` is the test of the outer loop (the entry of the function); `inner = true` is
the test of the loop that cycles to a workable letter in the message, reached after each run
of the outer body. -/
def encode_vigenere_loop (key : List Int) (fuel : Nat) :
    Bool → List Int → List Int → Option (List Int)
  | _, [], _ => some []
  | inner, c :: rest, key_cycler =>
    if inner && !isalpha c && c != 0 then
      (encode_vigenere_loop key fuel true rest key_cycler).map (c :: ·)
    else if c = 0 then some (c :: rest)
    else
      match cycle_key key fuel key_cycler with
      | none => none
      | some kc =>
        if test_character c = UPPER then
          (encode_vigenere_loop key fuel true rest (next_character kc)).map
            (((c - UPPER_INT + (character kc - LOWER_INT) + 26).tmod 26 + UPPER_INT) :: ·)
        else if test_character c = LOWER then
          (encode_vigenere_loop key fuel true rest (next_character kc)).map
            (((c - LOWER_INT + (character kc - LOWER_INT) + 26).tmod 26 + LOWER_INT) :: ·)
        else (encode_vigenere_loop key fuel true rest kc).map (c :: ·)

/-- Source `encode_vigenere_cipher`; `none` when a key-skipping loop exceeds `fuel` tests. -/
def encode_vigenere_cipher (plaintext key : List Int) (fuel : Nat) : Option (List Int) :=
  encode_vigenere_loop key fuel false plaintext key

/-- The loops of source `decode_vigenere_cipher`, as `encode_vigenere_loop`. -/
def decode_vigenere_loop (key : List Int) (fuel : Nat) :
    Bool → List Int → List Int → Option (List Int)
  | _, [], _ => some []
  | inner, c :: rest, key_cycler =>
    if inner && !isalpha c && c != 0 then
      (decode_vigenere_loop key fuel true rest key_cycler).map (c :: ·)
    else if c = 0 then some (c :: rest)
    else
      match cycle_key key fuel key_cycler with
      | none => none
      | some kc =>
        if test_character c = UPPER then
          (decode_vigenere_loop key fuel true rest (next_character kc)).map
            (((c - UPPER_INT - (character kc - LOWER_INT) + 26).tmod 26 + UPPER_INT) :: ·)
        else if test_character c = LOWER then
          (decode_vigenere_loop key fuel true rest (next_character kc)).map
            (((c - LOWER_INT - (character kc - LOWER_INT) + 26).tmod 26 + LOWER_INT) :: ·)
        else (decode_vigenere_loop key fuel true rest kc).map (c :: ·)

/-- Source `decode_vigenere_cipher`; `none` when a key-skipping loop exceeds `fuel` tests. -/
def decode_vigenere_cipher (ciphertext key : List Int) (fuel : Nat) : Option (List Int) :=
  decode_vigenere_loop key fuel false ciphertext key

/-! ## Building a string from the input stream

`create_string`, `get_string` and `get_key` allocate and link cells, so they work on the chain
that starts at the header cell: the header's character followed by the character cells.  The
other functions start at `text->next_character`; the cell list they take is
`next_character` of that chain.  The input stream is the list of the characters still to be
read; the empty list is end of input.  Allocation is taken to succeed. -/

/-- Source `create_string`: a header cell holding `'~'`, linked to the trailer. -/
def create_string : List Int := [126]

/-- C library `isspace` in the "C" locale. -/
def isspace (c : Int) : Bool := c == 32 || (9 ≤ c && c ≤ 13)

/-- The call `scanf(" ")`: consumes the white space at the head of the input stream. -/
def scanf_space (stdin : List Int) : List Int := stdin.dropWhile isspace

/-- The call `fgets(&new_character, 2, stdin)`: the next character of the stream is stored in
`new_character`; at end of input nothing is stored.  Gives the value `new_character` holds
afterwards and the rest of the stream.  (The `'\0'` that `fgets` writes behind the character
lands outside `new_character` and is not modelled.) -/
def fgets (new_character : Int) (stdin : List Int) : Int × List Int :=
  match stdin with
  | [] => (new_character, [])
  | ch :: rest => (ch, rest)

/-- The loop `while (fgets(&new_character, 2, stdin), new_character != '\n')` of `get_string`.
`linked` is the chain from the header up to `current_letter`, `held` the cells after it;
`fuel` bounds the number of loop tests.  Gives the chain and the rest of the stream. -/
def get_string_loop : Nat → Int → List Int → List Int → List Int → Option (List Int × List Int)
  | 0, _, _, _, _ => none
  | fuel + 1, new_character, stdin, linked, held =>
    if (fgets new_character stdin).1 = 10 then
      some (linked ++ held, (fgets new_character stdin).2)
    else
      get_string_loop fuel (fgets new_character stdin).1 (fgets new_character stdin).2
        (linked ++ [(fgets new_character stdin).1]) held

/-- Source `get_string` on the chain `text`; `new_character` is the value the uninitialised
local variable happens to hold. -/
def get_string (text stdin : List Int) (new_character : Int) (fuel : Nat) :
    Option (List Int × List Int) :=
  get_string_loop fuel new_character (scanf_space stdin) (text.take 1) (text.drop 1)

/-- The loop of `get_key`, the same statements as the loop of `get_string`. -/
def get_key_loop : Nat → Int → List Int → List Int → List Int → Option (List Int × List Int)
  | 0, _, _, _, _ => none
  | fuel + 1, new_character, stdin, linked, held =>
    if (fgets new_character stdin).1 = 10 then
      some (linked ++ held, (fgets new_character stdin).2)
    else
      get_key_loop fuel (fgets new_character stdin).1 (fgets new_character stdin).2
        (linked ++ [(fgets new_character stdin).1]) held

/-- Source `get_key` on the chain `key`. -/
def get_key (key stdin : List Int) (new_character : Int) (fuel : Nat) :
    Option (List Int × List Int) :=
  get_key_loop fuel new_character (scanf_space stdin) (key.take 1) (key.drop 1)

/-! ## The Vigenere functions on cells in memory

To state which cells the cipher engine writes, the two Vigenere functions are also embedded
over a memory of `LETTER` cells: an address is a `Nat`, and the memory gives the two fields of
the cell at each address.  Every loop takes the bound `fuel` on the number of its tests. -/

namespace Mem

/-- The fields `character` and `next_character` of the `LETTER` cell at each address. -/
structure Memory where
  character : Nat → Int
  next_character : Nat → Nat

/-- The assignment `p->character = v`. -/
def store (m : Memory) (p : Nat) (v : Int) : Memory :=
  { m with character := fun q => if q = p then v else m.character q }

/-- Following `next_character` from the address `p` visits the addresses `cells` in order and
then arrives at `t`. -/
def Chain (next : Nat → Nat) : Nat → List Nat → Nat → Prop
  | p, [], t => p = t
  | p, a :: cells, t => p = a ∧ Chain next (next a) cells t

/-- The string whose header cell is at `text` renders the cells at the addresses `cells`: they
follow the header in this order, none holds `'\0'`, and the cell `t` after them holds `'\0'`. -/
def IsString (m : Memory) (text : Nat) (cells : List Nat) (t : Nat) : Prop :=
  Chain m.next_character (m.next_character text) cells t ∧
  (∀ a ∈ cells, m.character a ≠ 0) ∧ m.character t = 0

/-- The key-skipping loop `while (!isalpha(key_cycler->character))`. -/
def cycle_key (m : Memory) (key : Nat) : Nat → Nat → Option Nat
  | 0, _ => none
  | fuel + 1, key_cycler =>
    if isalpha (m.character key_cycler) then some key_cycler
    else if m.character key_cycler = 0 then cycle_key m key fuel (m.next_character key)
    else cycle_key m key fuel (m.next_character key_cycler)

/-- The loop that cycles to a workable letter in the message,
`while (!isalpha(current_letter->character) && current_letter->character != '\0')`. -/
def cycle_message (m : Memory) : Nat → Nat → Option Nat
  | 0, _ => none
  | fuel + 1, current_letter =>
    if !isalpha (m.character current_letter) && m.character current_letter != 0 then
      cycle_message m fuel (m.next_character current_letter)
    else some current_letter

/-- The outer loop of source `encode_vigenere_cipher`; the first argument bounds its tests. -/
def encode_vigenere_loop (key : Nat) (fuel : Nat) : Nat → Memory → Nat → Nat → Option Memory
  | 0, _, _, _ => none
  | n + 1, m, current_letter, key_cycler =>
    if m.character current_letter = 0 then some m
    else
      match cycle_key m key fuel key_cycler with
      | none => none
      | some kc =>
        if test_character (m.character current_letter) = UPPER then
          match cycle_message
              (store m current_letter ((m.character current_letter - UPPER_INT +
                (m.character kc - LOWER_INT) + 26).tmod 26 + UPPER_INT))
              fuel (m.next_character current_letter) with
          | none => none
          | some cur =>
            encode_vigenere_loop key fuel n
              (store m current_letter ((m.character current_letter - UPPER_INT +
                (m.character kc - LOWER_INT) + 26).tmod 26 + UPPER_INT))
              cur (m.next_character kc)
        else if test_character (m.character current_letter) = LOWER then
          match cycle_message
              (store m current_letter ((m.character current_letter - LOWER_INT +
                (m.character kc - LOWER_INT) + 26).tmod 26 + LOWER_INT))
              fuel (m.next_character current_letter) with
          | none => none
          | some cur =>
            encode_vigenere_loop key fuel n
              (store m current_letter ((m.character current_letter - LOWER_INT +
                (m.character kc - LOWER_INT) + 26).tmod 26 + LOWER_INT))
              cur (m.next_character kc)
        else
          match cycle_message m fuel (m.next_character current_letter) with
          | none => none
          | some cur => encode_vigenere_loop key fuel n m cur kc

/-- Source `encode_vigenere_cipher` on the strings whose header cells are at `plaintext` and
`key`; `none` when a loop exceeds `fuel` tests. -/
def encode_vigenere_cipher (m : Memory) (plaintext key : Nat) (fuel : Nat) : Option Memory :=
  encode_vigenere_loop key fuel fuel m (m.next_character plaintext) (m.next_character key)

/-- The outer loop of source `decode_vigenere_cipher`; the first argument bounds its tests. -/
def decode_vigenere_loop (key : Nat) (fuel : Nat) : Nat → Memory → Nat → Nat → Option Memory
  | 0, _, _, _ => none
  | n + 1, m, current_letter, key_cycler =>
    if m.character current_letter = 0 then some m
    else
      match cycle_key m key fuel key_cycler with
      | none => none
      | some kc =>
        if test_character (m.character current_letter) = UPPER then
          match cycle_message
              (store m current_letter ((m.character current_letter - UPPER_INT -
                (m.character kc - LOWER_INT) + 26).tmod 26 + UPPER_INT))
              fuel (m.next_character current_letter) with
          | none => none
          | some cur =>
            decode_vigenere_loop key fuel n
              (store m current_letter ((m.character current_letter - UPPER_INT -
                (m.character kc - LOWER_INT) + 26).tmod 26 + UPPER_INT))
              cur (m.next_character kc)
        else if test_character (m.character current_letter) = LOWER then
          match cycle_message
              (store m current_letter ((m.character current_letter - LOWER_INT -
                (m.character kc - LOWER_INT) + 26).tmod 26 + LOWER_INT))
              fuel (m.next_character current_letter) with
          | none => none
          | some cur =>
            decode_vigenere_loop key fuel n
              (store m current_letter ((m.character current_letter - LOWER_INT -
                (m.character kc - LOWER_INT) + 26).tmod 26 + LOWER_INT))
              cur (m.next_character kc)
        else
          match cycle_message m fuel (m.next_character current_letter) with
          | none => none
          | some cur => decode_vigenere_loop key fuel n m cur kc

/-- Source `decode_vigenere_cipher` on the strings whose header cells are at `plaintext` and
`key`; `none` when a loop exceeds `fuel` tests. -/
def decode_vigenere_cipher (m : Memory) (ciphertext key : Nat) (fuel : Nat) : Option Memory :=
  decode_vigenere_loop key fuel fuel m (m.next_character ciphertext) (m.next_character key)

/-- What the engine leaves of a memory `m` in which the message renders the cells `ma` and
the key the cells `ka` up to `kt`: the links are the same and only characters of message
cells differ, so the key string is the same, character for character. -/
def KeyUntouched (m m' : Memory) (key : Nat) (ma ka : List Nat) (kt : Nat) : Prop :=
  m'.next_character = m.next_character ∧
  (∀ a, a ∉ ma → m'.character a = m.character a) ∧
  IsString m' key ka kt ∧
  ka.map m'.character = ka.map m.character

/-- The key-skipping loop with its cursor moves counted: the number of assignments to
`key_cycler` the loop makes, and the cell it ends at. -/
def cycle_key_moves (m : Memory) (key : Nat) : Nat → Nat → Option (Nat × Nat)
  | 0, _ => none
  | fuel + 1, key_cycler =>
    if isalpha (m.character key_cycler) then some (0, key_cycler)
    else if m.character key_cycler = 0 then
      (cycle_key_moves m key fuel (m.next_character key)).map (fun r => (r.1 + 1, r.2))
    else
      (cycle_key_moves m key fuel (m.next_character key_cycler)).map (fun r => (r.1 + 1, r.2))

/-- One run of the body of the outer loop of source `encode_vigenere_cipher`: the memory, the
message cursor `current_letter` and the key cursor `key_cycler` it leaves. -/
def encode_vigenere_body (key fuel : Nat) (m : Memory) (current_letter key_cycler : Nat) :
    Option (Memory × Nat × Nat) :=
  match cycle_key m key fuel key_cycler with
  | none => none
  | some kc =>
    if test_character (m.character current_letter) = UPPER then
      match cycle_message
          (store m current_letter ((m.character current_letter - UPPER_INT +
            (m.character kc - LOWER_INT) + 26).tmod 26 + UPPER_INT))
          fuel (m.next_character current_letter) with
      | none => none
      | some cur =>
        some (store m current_letter ((m.character current_letter - UPPER_INT +
          (m.character kc - LOWER_INT) + 26).tmod 26 + UPPER_INT), cur, m.next_character kc)
    else if test_character (m.character current_letter) = LOWER then
      match cycle_message
          (store m current_letter ((m.character current_letter - LOWER_INT +
            (m.character kc - LOWER_INT) + 26).tmod 26 + LOWER_INT))
          fuel (m.next_character current_letter) with
      | none => none
      | some cur =>
        some (store m current_letter ((m.character current_letter - LOWER_INT +
          (m.character kc - LOWER_INT) + 26).tmod 26 + LOWER_INT), cur, m.next_character kc)
    else
      match cycle_message m fuel (m.next_character current_letter) with
      | none => none
      | some cur => some (m, cur, kc)

/-- One run of the body of the outer loop of source `decode_vigenere_cipher`. -/
def decode_vigenere_body (key fuel : Nat) (m : Memory) (current_letter key_cycler : Nat) :
    Option (Memory × Nat × Nat) :=
  match cycle_key m key fuel key_cycler with
  | none => none
  | some kc =>
    if test_character (m.character current_letter) = UPPER then
      match cycle_message
          (store m current_letter ((m.character current_letter - UPPER_INT -
            (m.character kc - LOWER_INT) + 26).tmod 26 + UPPER_INT))
          fuel (m.next_character current_letter) with
      | none => none
      | some cur =>
        some (store m current_letter ((m.character current_letter - UPPER_INT -
          (m.character kc - LOWER_INT) + 26).tmod 26 + UPPER_INT), cur, m.next_character kc)
    else if test_character (m.character current_letter) = LOWER then
      match cycle_message
          (store m current_letter ((m.character current_letter - LOWER_INT -
            (m.character kc - LOWER_INT) + 26).tmod 26 + LOWER_INT))
          fuel (m.next_character current_letter) with
      | none => none
      | some cur =>
        some (store m current_letter ((m.character current_letter - LOWER_INT -
          (m.character kc - LOWER_INT) + 26).tmod 26 + LOWER_INT), cur, m.next_character kc)
    else
      match cycle_message m fuel (m.next_character current_letter) with
      | none => none
      | some cur => some (m, cur, kc)

/-- A state at the test of the outer loop of either Vigenere function: the message cursor
`current_letter` has the cells `cells`, none holding `'\0'`, between it and the terminator
`mt`; the key string renders `ka` up to `kt` and has a letter; no remaining message cell is a
key cell; and the key cursor `key_cycler` is at a cell of the key string or at `kt`. -/
def Running (m : Memory) (key : Nat) (ka : List Nat) (kt mt : Nat) (cells : List Nat)
    (current_letter key_cycler : Nat) : Prop :=
  Chain m.next_character current_letter cells mt ∧
  (∀ a ∈ cells, m.character a ≠ 0) ∧ m.character mt = 0 ∧
  IsString m key ka kt ∧ (∃ b ∈ ka, isalpha (m.character b) = true) ∧
  (∀ a ∈ cells, a ∉ ka ∧ a ≠ kt) ∧
  ∃ pre ks, ka = pre ++ ks ∧ Chain m.next_character key_cycler ks kt

/-- A memory that holds the message "Hi!" (header at address 1, cells 2 to 4, trailer 5) and
the key "ab" (header at address 6, cells 7 and 8, trailer 9). -/
def demo : Memory where
  character := fun a => ([0, 126, 72, 105, 33, 0, 126, 97, 98, 0] : List Int).getD a 0
  next_character := fun a => ([0, 2, 3, 4, 5, 0, 7, 8, 9, 0] : List Nat).getD a 0

end Mem

/-! ## Reference definitions, following the specification -/

/-- The alphabetic characters of a key sequence, in order: the characters the key cursor
cycles over. -/
def key_letters (key : List Int) : List Int := (print_string key).filter isalpha

/-- Caesar encode as the specification words it: `((char - base + rotation) mod 26) + base`
with a true modulo, non-letters unchanged. -/
def caesar_encode_spec (rotation : Int) : List Int → List Int
  | [] => []
  | c :: rest =>
    if 65 ≤ c ∧ c ≤ 90 then ((c - 65 + rotation) % 26 + 65) :: caesar_encode_spec rotation rest
    else if 97 ≤ c ∧ c ≤ 122 then
      ((c - 97 + rotation) % 26 + 97) :: caesar_encode_spec rotation rest
    else c :: caesar_encode_spec rotation rest

/-- Caesar decode as the specification words it: `((char - base - rotation + 26) mod 26) + base`
with a true modulo, non-letters unchanged. -/
def caesar_decode_spec (rotation : Int) : List Int → List Int
  | [] => []
  | c :: rest =>
    if 65 ≤ c ∧ c ≤ 90 then
      ((c - 65 - rotation + 26) % 26 + 65) :: caesar_decode_spec rotation rest
    else if 97 ≤ c ∧ c ≤ 122 then
      ((c - 97 - rotation + 26) % 26 + 97) :: caesar_decode_spec rotation rest
    else c :: caesar_decode_spec rotation rest

/-- Vigenere encode as the specification words it: the `i`-th alphabetic character `c` of the
message becomes `base + ((c - base + (k_(i mod n) - 'a')) mod 26)`, where `ks = k_0..k_(n-1)`
are the alphabetic characters of the key; other characters are unchanged. -/
def vigenere_encode_spec (ks : List Int) : Nat → List Int → List Int
  | _, [] => []
  | i, c :: rest =>
    if 65 ≤ c ∧ c ≤ 90 then
      (65 + (c - 65 + (ks.getD (i % ks.length) 0 - 97)) % 26) ::
        vigenere_encode_spec ks (i + 1) rest
    else if 97 ≤ c ∧ c ≤ 122 then
      (97 + (c - 97 + (ks.getD (i % ks.length) 0 - 97)) % 26) ::
        vigenere_encode_spec ks (i + 1) rest
    else c :: vigenere_encode_spec ks i rest

/-- Vigenere decode as the specification words it: the `i`-th alphabetic character `c` of the
message becomes `base + ((c - base - (k_(i mod n) - 'a') + 26) mod 26)`. -/
def vigenere_decode_spec (ks : List Int) : Nat → List Int → List Int
  | _, [] => []
  | i, c :: rest =>
    if 65 ≤ c ∧ c ≤ 90 then
      (65 + (c - 65 - (ks.getD (i % ks.length) 0 - 97) + 26) % 26) ::
        vigenere_decode_spec ks (i + 1) rest
    else if 97 ≤ c ∧ c ≤ 122 then
      (97 + (c - 97 - (ks.getD (i % ks.length) 0 - 97) + 26) % 26) ::
        vigenere_decode_spec ks (i + 1) rest
    else c :: vigenere_decode_spec ks i rest

/-- A key pointer `s` the engine can hold once `i` message letters have been shifted: it
points into the rendered part of `key`, and the number of key letters before it is congruent
to `i` modulo the number of key letters. -/
def CyclerAt (key s : List Int) (i : Nat) : Prop :=
  ∃ pre, key = pre ++ s ∧ (∀ x ∈ pre, x ≠ 0) ∧
    (pre.filter isalpha).length % (key_letters key).length = i % (key_letters key).length

/-- The cell list `out` is `M` overwritten in place with no terminator stored: it has as many
cells, a cell holds `'\0'` afterwards exactly when it did before, and `print_string` renders
as many characters. -/
def OverwrittenInPlace (M out : List Int) : Prop :=
  out.length = M.length ∧
  (∀ (i : Nat) (c d : Int), M[i]? = some c → out[i]? = some d → (d = 0 ↔ c = 0)) ∧
  (print_string out).length = (print_string M).length

/-! ## Characters -/

theorem isalpha_iff (c : Int) : isalpha c = true ↔ (65 ≤ c ∧ c ≤ 90) ∨ (97 ≤ c ∧ c ≤ 122) := by
  simp [isalpha]

theorem isalpha_false_iff (c : Int) :
    isalpha c = false ↔ ¬ ((65 ≤ c ∧ c ≤ 90) ∨ (97 ≤ c ∧ c ≤ 122)) := by
  rw [← isalpha_iff]; simp

theorem test_character_upper_iff (c : Int) : test_character c = UPPER ↔ 65 ≤ c ∧ c ≤ 90 := by
  unfold test_character UPPER LOWER NEITHER
  split_ifs <;> simp <;> omega

theorem test_character_lower_iff (c : Int) : test_character c = LOWER ↔ 97 ≤ c ∧ c ≤ 122 := by
  unfold test_character UPPER LOWER NEITHER
  split_ifs <;> simp <;> omega

theorem isalpha_tolower (c : Int) : isalpha (tolower c) = isalpha c := by
  rw [Bool.eq_iff_iff, isalpha_iff, isalpha_iff]
  unfold tolower
  split_ifs <;> omega

theorem tolower_ne_zero (c : Int) (h : c ≠ 0) : tolower c ≠ 0 := by
  unfold tolower
  split_ifs <;> omega

theorem tolower_lower (c : Int) (h : isalpha c = true) : 97 ≤ tolower c ∧ tolower c ≤ 122 := by
  rw [isalpha_iff] at h
  unfold tolower
  split_ifs <;> omega

/-! ## Rendered prefix of a cell list -/

theorem print_string_append (pre s : List Int) (h : ∀ x ∈ pre, x ≠ 0) :
    print_string (pre ++ s) = pre ++ print_string s := by
  induction pre with
  | nil => rfl
  | cons a pre ih =>
    have ha : a ≠ 0 := h a (List.mem_cons_self _ _)
    have ih2 := ih (fun x hx => h x (List.mem_cons_of_mem _ hx))
    simp [print_string, ha, ih2]

theorem print_string_ne_zero (s : List Int) : ∀ x ∈ print_string s, x ≠ 0 := by
  induction s with
  | nil => simp [print_string]
  | cons a s ih =>
    unfold print_string
    split_ifs with h
    · simp
    · intro x hx
      rcases List.mem_cons.mp hx with rfl | hx
      · exact h
      · exact ih x hx

theorem print_string_append_drop (s : List Int) :
    print_string s ++ s.drop (print_string s).length = s := by
  induction s with
  | nil => rfl
  | cons a s ih =>
    unfold print_string
    split_ifs with h
    · simp
    · simpa using ih

theorem character_drop_print_string (s : List Int) :
    character (s.drop (print_string s).length) = 0 := by
  induction s with
  | nil => rfl
  | cons a s ih =>
    unfold print_string
    split_ifs with h
    · simp [character, h]
    · simpa using ih

theorem print_string_of_character_zero (s : List Int) (h : character s = 0) :
    print_string s = [] := by
  cases s with
  | nil => rfl
  | cons a s =>
    have : a = 0 := by simpa [character] using h
    simp [print_string, this]

theorem print_string_to_lower (K : List Int) :
    print_string (to_lower K) = (print_string K).map tolower := by
  induction K with
  | nil => rfl
  | cons a K ih =>
    unfold to_lower
    split_ifs with h
    · simp [print_string, h]
    · simp [print_string, h, tolower_ne_zero a h, ih]

theorem to_lower_length (K : List Int) : (to_lower K).length = K.length := by
  induction K with
  | nil => rfl
  | cons a K ih =>
    unfold to_lower
    split_ifs <;> simp [ih]

theorem key_letters_to_lower (K : List Int) :
    key_letters (to_lower K) = (key_letters K).map tolower := by
  unfold key_letters
  rw [print_string_to_lower, List.filter_map]
  congr 1
  apply List.filter_congr
  intro x _
  simp [isalpha_tolower]

theorem key_letters_to_lower_lower (K : List Int) :
    ∀ k ∈ key_letters (to_lower K), 97 ≤ k ∧ k ≤ 122 := by
  intro k hk
  rw [key_letters_to_lower] at hk
  obtain ⟨a, ha, rfl⟩ := List.mem_map.mp hk
  exact tolower_lower a (by simpa [key_letters] using (List.mem_filter.mp ha).2)

theorem key_letters_append (pre s : List Int) (h : ∀ x ∈ pre, x ≠ 0) :
    key_letters (pre ++ s) = pre.filter isalpha ++ key_letters s := by
  simp [key_letters, print_string_append pre s h]

/-! ## The key-skipping loop -/

theorem cycle_key_find (key : List Int) (k : Int) (s' : List Int) (hk : isalpha k = true) :
    ∀ (mid : List Int) (fuel : Nat), (∀ x ∈ mid, isalpha x = false ∧ x ≠ 0) →
      mid.length + 1 ≤ fuel → cycle_key key fuel (mid ++ k :: s') = some (k :: s') := by
  intro mid
  induction mid with
  | nil =>
    intro fuel _ hf
    obtain ⟨f, rfl⟩ : ∃ f, fuel = f + 1 := ⟨fuel - 1, by simp at hf; omega⟩
    simp [cycle_key, character, hk]
  | cons a mid ih =>
    intro fuel hmid hf
    obtain ⟨f, rfl⟩ : ∃ f, fuel = f + 1 := ⟨fuel - 1, by simp at hf; omega⟩
    have ha := hmid a (List.mem_cons_self _ _)
    have hrec := ih f (fun x hx => hmid x (List.mem_cons_of_mem _ hx))
      (by simp at hf ⊢; omega)
    simp [cycle_key, character, next_character, ha.1, ha.2, hrec]

theorem cycle_key_wrap (key tail : List Int) (ht : character tail = 0) :
    ∀ (mid : List Int) (fuel : Nat), (∀ x ∈ mid, isalpha x = false ∧ x ≠ 0) →
      mid.length + 1 ≤ fuel →
      cycle_key key fuel (mid ++ tail) = cycle_key key (fuel - mid.length - 1) key := by
  intro mid
  induction mid with
  | nil =>
    intro fuel _ hf
    obtain ⟨f, rfl⟩ : ∃ f, fuel = f + 1 := ⟨fuel - 1, by simp at hf; omega⟩
    have h0 : isalpha 0 = false := by decide
    simp [cycle_key, ht, h0]
  | cons a mid ih =>
    intro fuel hmid hf
    obtain ⟨f, rfl⟩ : ∃ f, fuel = f + 1 := ⟨fuel - 1, by simp at hf; omega⟩
    have ha := hmid a (List.mem_cons_self _ _)
    have hrec := ih f (fun x hx => hmid x (List.mem_cons_of_mem _ hx))
      (by simp at hf ⊢; omega)
    have hsub : f + 1 - (a :: mid).length - 1 = f - mid.length - 1 := by simp
    simp only [List.cons_append, cycle_key, character, next_character, List.headD_cons,
      List.tail_cons, ha.1, ha.2, hrec, hsub]
    simp

/-- Every cell list splits into a run of non-alphabetic, non-NUL cells followed by a list
whose first cell is alphabetic or the terminator. -/
theorem split_cells (s : List Int) :
    ∃ mid tail, s = mid ++ tail ∧ (∀ x ∈ mid, isalpha x = false ∧ x ≠ 0) ∧
      (character tail = 0 ∨ isalpha (character tail) = true) := by
  induction s with
  | nil => exact ⟨[], [], rfl, by simp, Or.inl rfl⟩
  | cons a s ih =>
    by_cases ha : isalpha a = true
    · exact ⟨[], a :: s, rfl, by simp, Or.inr (by simpa [character] using ha)⟩
    · by_cases h0 : a = 0
      · exact ⟨[], a :: s, rfl, by simp, Or.inl (by simpa [character] using h0)⟩
      · obtain ⟨mid, tail, rfl, hmid, ht⟩ := ih
        refine ⟨a :: mid, tail, rfl, ?_, ht⟩
        intro x hx
        rcases List.mem_cons.mp hx with rfl | hx
        · exact ⟨by simpa using ha, h0⟩
        · exact hmid x hx

theorem filter_isalpha_eq_nil (mid : List Int) (h : ∀ x ∈ mid, isalpha x = false ∧ x ≠ 0) :
    mid.filter isalpha = [] := by
  rw [List.filter_eq_nil_iff]
  intro x hx
  simp [(h x hx).1]

/-- A list with an alphabetic element splits at its first one. -/
theorem split_first_alpha (pre : List Int) (h0 : ∀ x ∈ pre, x ≠ 0)
    (h : pre.filter isalpha ≠ []) :
    ∃ a x b, pre = a ++ x :: b ∧ (∀ y ∈ a, isalpha y = false ∧ y ≠ 0) ∧ isalpha x = true := by
  induction pre with
  | nil => simp at h
  | cons c pre ih =>
    by_cases hc : isalpha c = true
    · exact ⟨[], c, pre, rfl, by simp, hc⟩
    · have hne : pre.filter isalpha ≠ [] := by simpa [List.filter, hc] using h
      obtain ⟨a, x, b, rfl, ha, hx⟩ := ih (fun y hy => h0 y (List.mem_cons_of_mem _ hy)) hne
      refine ⟨c :: a, x, b, rfl, ?_, hx⟩
      intro y hy
      rcases List.mem_cons.mp hy with rfl | hy
      · exact ⟨by simpa using hc, h0 y (List.mem_cons_self _ _)⟩
      · exact ha y hy

theorem cyclerAt_start (key : List Int) : CyclerAt key key 0 :=
  ⟨[], rfl, by simp, by simp⟩

/-- With a key that has a letter, the key-skipping loop ends within `key.length + 1` tests at
the letter of index `i mod n`, and the pointer after it is the one for `i + 1`. -/
theorem cycle_key_spec (key s : List Int) (i fuel : Nat) (hn : key_letters key ≠ [])
    (hs : CyclerAt key s i) (hf : key.length + 1 ≤ fuel) :
    ∃ k s', cycle_key key fuel s = some (k :: s') ∧
      (key_letters key)[i % (key_letters key).length]? = some k ∧
      CyclerAt key (k :: s') i ∧ CyclerAt key s' (i + 1) := by
  obtain ⟨pre, hkey, hpre, hcnt⟩ := hs
  obtain ⟨mid, tail, rfl, hmid, ht⟩ := split_cells s
  have hmid0 : ∀ x ∈ mid, x ≠ 0 := fun x hx => (hmid x hx).2
  have hKL : key_letters key = pre.filter isalpha ++ key_letters tail := by
    rw [hkey, key_letters_append pre _ hpre, key_letters_append mid _ hmid0,
      filter_isalpha_eq_nil mid hmid, List.nil_append]
  have hlen : key.length = pre.length + (mid.length + tail.length) := by
    rw [hkey]; simp
  rcases ht with ht | ht
  · -- the pointer reaches the terminator and goes back to the first cell
    have hkt : key_letters tail = [] := by
      simp [key_letters, print_string_of_character_zero tail ht]
    rw [hkt, List.append_nil] at hKL
    obtain ⟨a, x, b, hab, ha, hx⟩ := split_first_alpha pre hpre (by rw [← hKL]; exact hn)
    have hfa : (a ++ x :: b).filter isalpha = x :: b.filter isalpha := by
      rw [List.filter_append, filter_isalpha_eq_nil a ha]
      simp [List.filter, hx]
    have hkey2 : key = a ++ x :: (b ++ (mid ++ tail)) := by rw [hkey, hab]; simp
    have hpl : pre.length = a.length + (b.length + 1) := by rw [hab]; simp
    have hi0 : Nat.ModEq (key_letters key).length 0 i := by
      have h1 : Nat.ModEq (key_letters key).length (key_letters key).length i := by
        have := hcnt
        rw [← hKL] at this
        exact this
      exact (Nat.modEq_zero_iff_dvd.mpr (dvd_refl _)).symm.trans h1
    refine ⟨x, b ++ (mid ++ tail), ?_, ?_, ?_, ?_⟩
    · rw [cycle_key_wrap key tail ht mid fuel hmid (by omega)]
      have h := cycle_key_find key x (b ++ (mid ++ tail)) hx a (fuel - mid.length - 1) ha
        (by omega)
      rw [← hkey2] at h
      exact h
    · have : i % (key_letters key).length = 0 := by
        have := hi0
        unfold Nat.ModEq at this
        simpa using this.symm
      rw [this, hKL, hab, hfa]
      simp
    · refine ⟨a, hkey2, fun y hy => (ha y hy).2, ?_⟩
      rw [filter_isalpha_eq_nil a ha]
      exact hi0
    · refine ⟨a ++ [x], by rw [hkey2]; simp, ?_, ?_⟩
      · intro y hy
        rcases List.mem_append.mp hy with hy | hy
        · exact (ha y hy).2
        · have : y = x := by simpa using hy
          rw [this]
          intro h0
          rw [h0] at hx
          exact absurd hx (by decide)
      · rw [List.filter_append, filter_isalpha_eq_nil a ha]
        have : [x].filter isalpha = [x] := by simp [List.filter, hx]
        rw [this]
        exact Nat.ModEq.add_right 1 hi0
  · -- a letter lies ahead of the pointer
    obtain ⟨k, s', rfl⟩ : ∃ k s', tail = k :: s' := by
      cases tail with
      | nil => exact absurd ht (by decide)
      | cons k s' => exact ⟨k, s', rfl⟩
    have hk : isalpha k = true := by simpa [character] using ht
    have hk0 : k ≠ 0 := by
      intro h0
      rw [h0] at hk
      exact absurd hk (by decide)
    have hkt : key_letters (k :: s') = k :: key_letters s' := by
      simp [key_letters, print_string, hk0, List.filter, hk]
    rw [hkt] at hKL
    have hj : (pre.filter isalpha).length < (key_letters key).length := by
      rw [hKL]; simp
    have hij : i % (key_letters key).length = (pre.filter isalpha).length := by
      rw [← hcnt]; exact Nat.mod_eq_of_lt hj
    refine ⟨k, s', ?_, ?_, ?_, ?_⟩
    · exact cycle_key_find key k s' hk mid fuel hmid (by simp at hlen; omega)
    · rw [hij, hKL, List.getElem?_append_right (le_refl _)]
      simp
    · refine ⟨pre ++ mid, by rw [hkey]; simp, ?_, ?_⟩
      · intro y hy
        rcases List.mem_append.mp hy with hy | hy
        · exact hpre y hy
        · exact hmid0 y hy
      · rw [List.filter_append, filter_isalpha_eq_nil mid hmid, List.append_nil]
        exact hcnt
    · refine ⟨pre ++ mid ++ [k], by rw [hkey]; simp, ?_, ?_⟩
      · intro y hy
        rcases List.mem_append.mp hy with hy | hy
        · rcases List.mem_append.mp hy with hy | hy
          · exact hpre y hy
          · exact hmid0 y hy
        · have : y = k := by simpa using hy
          rw [this]; exact hk0
      · rw [List.filter_append, List.filter_append, filter_isalpha_eq_nil mid hmid,
          List.append_nil]
        have : [k].filter isalpha = [k] := by simp [List.filter, hk]
        rw [this, List.length_append]
        exact Nat.ModEq.add_right 1 hcnt

/-- With a key that has no letter the key-skipping loop never ends: it is still running
after any number of tests. -/
theorem cycle_key_no_letter (key : List Int) (hn : key_letters key = []) :
    ∀ (fuel : Nat) (s : List Int), (∃ pre, key = pre ++ s ∧ ∀ x ∈ pre, x ≠ 0) →
      cycle_key key fuel s = none := by
  intro fuel
  induction fuel with
  | zero => intro s _; rfl
  | succ f ih =>
    intro s hs
    obtain ⟨pre, hkey, hpre⟩ := hs
    unfold cycle_key
    by_cases hal : isalpha (character s) = true
    · exfalso
      cases s with
      | nil => exact absurd hal (by decide)
      | cons k s' =>
        have hk : isalpha k = true := by simpa [character] using hal
        have hk0 : k ≠ 0 := by
          intro h0
          rw [h0] at hk
          exact absurd hk (by decide)
        have : k ∈ key_letters key := by
          rw [hkey, key_letters_append pre _ hpre]
          apply List.mem_append_right
          simp [key_letters, print_string, hk0, hk]
        rw [hn] at this
        simp at this
    · by_cases h0 : character s = 0
      · simp only [hal, h0]
        exact ih key ⟨[], rfl, by simp⟩
      · simp only [hal, h0]
        cases s with
        | nil => exact absurd rfl h0
        | cons k s' =>
          refine ih s' ⟨pre ++ [k], by rw [hkey]; simp [next_character], ?_⟩
          intro x hx
          rcases List.mem_append.mp hx with hx | hx
          · exact hpre x hx
          · have : x = k := by simpa using hx
            rw [this]
            simpa [character] using h0

/-! ## The Vigenere loops compute the reference functions -/

theorem print_string_cons_ne (c : Int) (rest : List Int) (h : c ≠ 0) :
    print_string (c :: rest) = c :: print_string rest := by
  simp [print_string, h]

theorem print_string_cons_zero (rest : List Int) : print_string (0 :: rest) = [] := by
  simp [print_string]

theorem getD_of_getElem? (l : List Int) (j : Nat) (k : Int) (h : l[j]? = some k) :
    l.getD j 0 = k := by
  simp [List.getD, h]

theorem mem_of_getElem? (l : List Int) (j : Nat) (k : Int) (h : l[j]? = some k) : k ∈ l := by
  obtain ⟨hj, rfl⟩ := List.getElem?_eq_some.mp h
  exact List.getElem_mem hj

theorem encode_vigenere_loop_spec (key : List Int) (fuel : Nat) (hn : key_letters key ≠ [])
    (hlow : ∀ k ∈ key_letters key, 97 ≤ k ∧ k ≤ 122) (hf : key.length + 1 ≤ fuel) :
    ∀ (M : List Int) (inner : Bool) (s : List Int) (i : Nat), CyclerAt key s i →
      encode_vigenere_loop key fuel inner M s =
        some (vigenere_encode_spec (key_letters key) i (print_string M) ++
          M.drop (print_string M).length) := by
  intro M
  induction M with
  | nil => intro inner s i _; simp [encode_vigenere_loop, print_string, vigenere_encode_spec]
  | cons c rest ih =>
    intro inner s i hs
    by_cases h0 : c = 0
    · subst h0
      simp [encode_vigenere_loop, print_string, vigenere_encode_spec]
    · rw [print_string_cons_ne c rest h0]
      obtain ⟨k, s', hck, hget, hs1, hs2⟩ := cycle_key_spec key s i fuel hn hs hf
      have hkD := getD_of_getElem? _ _ _ hget
      have hkl := hlow k (mem_of_getElem? _ _ _ hget)
      by_cases hU : 65 ≤ c ∧ c ≤ 90
      · have hal : isalpha c = true := (isalpha_iff c).mpr (Or.inl hU)
        have hv : (c - UPPER_INT + (k - LOWER_INT) + 26).tmod 26 + UPPER_INT =
            65 + (c - 65 + (k - 97)) % 26 := by
          unfold UPPER_INT LOWER_INT
          rw [Int.tmod_eq_emod (by omega) (by omega)]
          omega
        simp only [encode_vigenere_loop, hal, h0, hck, (test_character_upper_iff c).mpr hU,
          ih true s' (i + 1) hs2, vigenere_encode_spec, hU, hkD, character, next_character,
          List.headD_cons, List.tail_cons, hv]
        simp
      · by_cases hL : 97 ≤ c ∧ c ≤ 122
        · have hal : isalpha c = true := (isalpha_iff c).mpr (Or.inr hL)
          have hnU : ¬ test_character c = UPPER := by
            rw [test_character_upper_iff]; exact hU
          have hv : (c - LOWER_INT + (k - LOWER_INT) + 26).tmod 26 + LOWER_INT =
              97 + (c - 97 + (k - 97)) % 26 := by
            unfold LOWER_INT
            rw [Int.tmod_eq_emod (by omega) (by omega)]
            omega
          have hLU : ¬ LOWER = UPPER := by decide
          simp only [encode_vigenere_loop, hal, h0, hck, hnU, hLU,
            (test_character_lower_iff c).mpr hL,
            ih true s' (i + 1) hs2, vigenere_encode_spec, hU, hL, hkD, character,
            next_character, List.headD_cons, List.tail_cons, hv]
          simp
        · have hal : isalpha c = false := (isalpha_false_iff c).mpr (by tauto)
          have hnU : ¬ test_character c = UPPER := by
            rw [test_character_upper_iff]; exact hU
          have hnL : ¬ test_character c = LOWER := by
            rw [test_character_lower_iff]; exact hL
          cases inner with
          | true =>
            simp [encode_vigenere_loop, hal, h0, ih true s i hs, vigenere_encode_spec, hU, hL]
          | false =>
            simp [encode_vigenere_loop, h0, hck, hnU, hnL, ih true (k :: s') i hs1,
              vigenere_encode_spec, hU, hL]

theorem decode_vigenere_loop_spec (key : List Int) (fuel : Nat) (hn : key_letters key ≠ [])
    (hlow : ∀ k ∈ key_letters key, 97 ≤ k ∧ k ≤ 122) (hf : key.length + 1 ≤ fuel) :
    ∀ (M : List Int) (inner : Bool) (s : List Int) (i : Nat), CyclerAt key s i →
      decode_vigenere_loop key fuel inner M s =
        some (vigenere_decode_spec (key_letters key) i (print_string M) ++
          M.drop (print_string M).length) := by
  intro M
  induction M with
  | nil => intro inner s i _; simp [decode_vigenere_loop, print_string, vigenere_decode_spec]
  | cons c rest ih =>
    intro inner s i hs
    by_cases h0 : c = 0
    · subst h0
      simp [decode_vigenere_loop, print_string, vigenere_decode_spec]
    · rw [print_string_cons_ne c rest h0]
      obtain ⟨k, s', hck, hget, hs1, hs2⟩ := cycle_key_spec key s i fuel hn hs hf
      have hkD := getD_of_getElem? _ _ _ hget
      have hkl := hlow k (mem_of_getElem? _ _ _ hget)
      by_cases hU : 65 ≤ c ∧ c ≤ 90
      · have hal : isalpha c = true := (isalpha_iff c).mpr (Or.inl hU)
        have hv : (c - UPPER_INT - (k - LOWER_INT) + 26).tmod 26 + UPPER_INT =
            65 + (c - 65 - (k - 97) + 26) % 26 := by
          unfold UPPER_INT LOWER_INT
          rw [Int.tmod_eq_emod (by omega) (by omega)]
          omega
        simp only [decode_vigenere_loop, hal, h0, hck, (test_character_upper_iff c).mpr hU,
          ih true s' (i + 1) hs2, vigenere_decode_spec, hU, hkD, character, next_character,
          List.headD_cons, List.tail_cons, hv]
        simp
      · by_cases hL : 97 ≤ c ∧ c ≤ 122
        · have hal : isalpha c = true := (isalpha_iff c).mpr (Or.inr hL)
          have hnU : ¬ test_character c = UPPER := by
            rw [test_character_upper_iff]; exact hU
          have hv : (c - LOWER_INT - (k - LOWER_INT) + 26).tmod 26 + LOWER_INT =
              97 + (c - 97 - (k - 97) + 26) % 26 := by
            unfold LOWER_INT
            rw [Int.tmod_eq_emod (by omega) (by omega)]
            omega
          have hLU : ¬ LOWER = UPPER := by decide
          simp only [decode_vigenere_loop, hal, h0, hck, hnU, hLU,
            (test_character_lower_iff c).mpr hL,
            ih true s' (i + 1) hs2, vigenere_decode_spec, hU, hL, hkD, character,
            next_character, List.headD_cons, List.tail_cons, hv]
          simp
        · have hal : isalpha c = false := (isalpha_false_iff c).mpr (by tauto)
          have hnU : ¬ test_character c = UPPER := by
            rw [test_character_upper_iff]; exact hU
          have hnL : ¬ test_character c = LOWER := by
            rw [test_character_lower_iff]; exact hL
          cases inner with
          | true =>
            simp [decode_vigenere_loop, hal, h0, ih true s i hs, vigenere_decode_spec, hU, hL]
          | false =>
            simp [decode_vigenere_loop, h0, hck, hnU, hnL, ih true (k :: s') i hs1,
              vigenere_decode_spec, hU, hL]

/-! ## Properties of the reference functions -/

theorem vigenere_encode_spec_length (ks : List Int) :
    ∀ (L : List Int) (i : Nat), (vigenere_encode_spec ks i L).length = L.length := by
  intro L
  induction L with
  | nil => intro i; rfl
  | cons c L ih =>
    intro i
    unfold vigenere_encode_spec
    split_ifs <;> simp [ih]

theorem vigenere_encode_spec_ne_zero (ks : List Int) :
    ∀ (L : List Int) (i : Nat), (∀ x ∈ L, x ≠ 0) →
      ∀ x ∈ vigenere_encode_spec ks i L, x ≠ 0 := by
  intro L
  induction L with
  | nil => intro i _ x hx; simp [vigenere_encode_spec] at hx
  | cons c L ih =>
    intro i hL x hx
    have hc := hL c (List.mem_cons_self _ _)
    have hrest := fun j => ih j (fun y hy => hL y (List.mem_cons_of_mem _ hy))
    unfold vigenere_encode_spec at hx
    split_ifs at hx
    · rcases List.mem_cons.mp hx with rfl | hx
      · omega
      · exact hrest _ x hx
    · rcases List.mem_cons.mp hx with rfl | hx
      · omega
      · exact hrest _ x hx
    · rcases List.mem_cons.mp hx with rfl | hx
      · exact hc
      · exact hrest _ x hx

theorem vigenere_decode_encode_spec (ks : List Int) :
    ∀ (L : List Int) (i : Nat),
      vigenere_decode_spec ks i (vigenere_encode_spec ks i L) = L := by
  intro L
  induction L with
  | nil => intro i; rfl
  | cons c L ih =>
    intro i
    by_cases hU : 65 ≤ c ∧ c ≤ 90
    · have h1 : 65 ≤ 65 + (c - 65 + (ks.getD (i % ks.length) 0 - 97)) % 26 ∧
          65 + (c - 65 + (ks.getD (i % ks.length) 0 - 97)) % 26 ≤ 90 := by omega
      simp only [vigenere_encode_spec, hU, vigenere_decode_spec, h1, ih]
      simp
      omega
    · by_cases hL : 97 ≤ c ∧ c ≤ 122
      · have h1 : ¬ (65 ≤ 97 + (c - 97 + (ks.getD (i % ks.length) 0 - 97)) % 26 ∧
            97 + (c - 97 + (ks.getD (i % ks.length) 0 - 97)) % 26 ≤ 90) := by omega
        have h2 : 97 ≤ 97 + (c - 97 + (ks.getD (i % ks.length) 0 - 97)) % 26 ∧
            97 + (c - 97 + (ks.getD (i % ks.length) 0 - 97)) % 26 ≤ 122 := by omega
        simp only [vigenere_encode_spec, hU, hL, vigenere_decode_spec, h1, h2, ih]
        simp
        omega
      · simp [vigenere_encode_spec, hU, hL, vigenere_decode_spec, ih]

theorem print_string_append_of_terminated (X rest : List Int) (hX : ∀ x ∈ X, x ≠ 0)
    (hr : character rest = 0) : print_string (X ++ rest) = X := by
  rw [print_string_append X rest hX, print_string_of_character_zero rest hr, List.append_nil]

theorem key_letters_to_lower_ne_nil (K : List Int)
    (hK : ∃ k ∈ print_string K, isalpha k = true) : key_letters (to_lower K) ≠ [] := by
  obtain ⟨k, hk, hal⟩ := hK
  rw [key_letters_to_lower]
  intro h
  have hmem : k ∈ key_letters K := List.mem_filter.mpr ⟨hk, hal⟩
  rw [List.map_eq_nil_iff] at h
  rw [h] at hmem
  simp at hmem

/-! ## Non-alphabetic cells -/

theorem encode_caesar_cipher_pass (R : Int) :
    ∀ (M : List Int) (i : Nat) (c : Int), M[i]? = some c → isalpha c = false →
      (encode_caesar_cipher M R)[i]? = some c := by
  intro M
  induction M with
  | nil => intro i c h; simp at h
  | cons a M ih =>
    intro i c h hc
    unfold encode_caesar_cipher
    by_cases h0 : a = 0
    · simpa [h0] using h
    · cases i with
      | zero =>
        obtain rfl : a = c := by simpa using h
        rw [isalpha_false_iff] at hc
        have hnU : ¬ test_character a = UPPER := by
          rw [test_character_upper_iff]; tauto
        have hnL : ¬ test_character a = LOWER := by
          rw [test_character_lower_iff]; tauto
        simp [h0, hnU, hnL]
      | succ i =>
        have h' : M[i]? = some c := by simpa using h
        have := ih i c h' hc
        split_ifs <;> simpa using this

theorem decode_caesar_cipher_pass (R : Int) :
    ∀ (M : List Int) (i : Nat) (c : Int), M[i]? = some c → isalpha c = false →
      (decode_caesar_cipher M R)[i]? = some c := by
  intro M
  induction M with
  | nil => intro i c h; simp at h
  | cons a M ih =>
    intro i c h hc
    unfold decode_caesar_cipher
    by_cases h0 : a = 0
    · simpa [h0] using h
    · cases i with
      | zero =>
        obtain rfl : a = c := by simpa using h
        rw [isalpha_false_iff] at hc
        have hnU : ¬ test_character a = UPPER := by
          rw [test_character_upper_iff]; tauto
        have hnL : ¬ test_character a = LOWER := by
          rw [test_character_lower_iff]; tauto
        simp [h0, hnU, hnL]
      | succ i =>
        have h' : M[i]? = some c := by simpa using h
        have := ih i c h' hc
        split_ifs <;> simpa using this

theorem vigenere_encode_spec_pass (ks : List Int) :
    ∀ (L : List Int) (j i : Nat) (c : Int), L[i]? = some c → isalpha c = false →
      (vigenere_encode_spec ks j L)[i]? = some c := by
  intro L
  induction L with
  | nil => intro j i c h; simp at h
  | cons a L ih =>
    intro j i c h hc
    unfold vigenere_encode_spec
    cases i with
    | zero =>
      obtain rfl : a = c := by simpa using h
      rw [isalpha_false_iff] at hc
      have hnU : ¬ (65 ≤ a ∧ a ≤ 90) := by tauto
      have hnL : ¬ (97 ≤ a ∧ a ≤ 122) := by tauto
      simp [hnU, hnL]
    | succ i =>
      have h' : L[i]? = some c := by simpa using h
      split_ifs
      · simpa using ih (j + 1) i c h' hc
      · simpa using ih (j + 1) i c h' hc
      · simpa using ih j i c h' hc

theorem vigenere_decode_spec_pass (ks : List Int) :
    ∀ (L : List Int) (j i : Nat) (c : Int), L[i]? = some c → isalpha c = false →
      (vigenere_decode_spec ks j L)[i]? = some c := by
  intro L
  induction L with
  | nil => intro j i c h; simp at h
  | cons a L ih =>
    intro j i c h hc
    unfold vigenere_decode_spec
    cases i with
    | zero =>
      obtain rfl : a = c := by simpa using h
      rw [isalpha_false_iff] at hc
      have hnU : ¬ (65 ≤ a ∧ a ≤ 90) := by tauto
      have hnL : ¬ (97 ≤ a ∧ a ≤ 122) := by tauto
      simp [hnU, hnL]
    | succ i =>
      have h' : L[i]? = some c := by simpa using h
      split_ifs
      · simpa using ih (j + 1) i c h' hc
      · simpa using ih (j + 1) i c h' hc
      · simpa using ih j i c h' hc

theorem vigenere_decode_spec_length (ks : List Int) :
    ∀ (L : List Int) (i : Nat), (vigenere_decode_spec ks i L).length = L.length := by
  intro L
  induction L with
  | nil => intro i; rfl
  | cons c L ih =>
    intro i
    unfold vigenere_decode_spec
    split_ifs <;> simp [ih]

/-- A cell-wise property of a transform of the rendered part carries over to the whole cell
list, whose cells from the first terminator on are kept. -/
theorem cellwise_append (Q : Int → Prop) (P : Int → Int → Prop) (hP : ∀ c, P c c)
    (X Y rest : List Int) (hlen : Y.length = X.length)
    (h : ∀ (i : Nat) (c : Int), X[i]? = some c → Q c → ∃ d, Y[i]? = some d ∧ P c d) :
    ∀ (i : Nat) (c : Int), (X ++ rest)[i]? = some c → Q c →
      ∃ d, (Y ++ rest)[i]? = some d ∧ P c d := by
  intro i c hi hq
  by_cases hlt : i < X.length
  · rw [List.getElem?_append_left hlt] at hi
    rw [List.getElem?_append_left (by omega)]
    exact h i c hi hq
  · rw [List.getElem?_append_right (by omega)] at hi
    rw [List.getElem?_append_right (by omega), hlen]
    exact ⟨c, hi, hP c⟩

/-! ## Caesar transforms inside the range where no operand of `%` is negative -/

theorem int_wrap_of_range (x : Int) (h : -2147483648 ≤ x) (h' : x < 2147483648) :
    int_wrap x = x := by
  unfold int_wrap
  omega

/-- For a rotation `R ≥ 0` (small enough for `int`), `encode_caesar_cipher` computes the
reference formula on the rendered message and keeps the cells from the terminator on. -/
theorem encode_caesar_cipher_eq_spec (R : Int) (h0 : 0 ≤ R) (h1 : R ≤ 2147483622) :
    ∀ M : List Int, encode_caesar_cipher M R =
      caesar_encode_spec R (print_string M) ++ M.drop (print_string M).length := by
  intro M
  induction M with
  | nil => rfl
  | cons c M ih =>
    by_cases hc : c = 0
    · subst hc
      simp [encode_caesar_cipher, print_string, caesar_encode_spec]
    · rw [print_string_cons_ne c M hc]
      by_cases hU : 65 ≤ c ∧ c ≤ 90
      · have hv : (int_wrap (c - UPPER_INT + R)).tmod 26 + UPPER_INT =
            (c - 65 + R) % 26 + 65 := by
          unfold UPPER_INT
          rw [int_wrap_of_range _ (by omega) (by omega), Int.tmod_eq_emod (by omega) (by omega)]
        simp only [encode_caesar_cipher, hc, (test_character_upper_iff c).mpr hU,
          caesar_encode_spec, hU, hv, ih]
        simp
      · have hnU : ¬ test_character c = UPPER := by
          rw [test_character_upper_iff]; exact hU
        by_cases hL : 97 ≤ c ∧ c ≤ 122
        · have hv : (int_wrap (c - LOWER_INT + R)).tmod 26 + LOWER_INT =
              (c - 97 + R) % 26 + 97 := by
            unfold LOWER_INT
            rw [int_wrap_of_range _ (by omega) (by omega),
              Int.tmod_eq_emod (by omega) (by omega)]
          have hLU : ¬ LOWER = UPPER := by decide
          simp only [encode_caesar_cipher, hc, hnU, hLU, (test_character_lower_iff c).mpr hL,
            caesar_encode_spec, hU, hL, hv, ih]
          simp
        · have hnL : ¬ test_character c = LOWER := by
            rw [test_character_lower_iff]; exact hL
          simp [encode_caesar_cipher, hc, hnU, hnL, caesar_encode_spec, hU, hL, ih]

/-- For a rotation `R ≤ 26` (large enough for `int`), `decode_caesar_cipher` computes the
reference formula on the rendered message and keeps the cells from the terminator on. -/
theorem decode_caesar_cipher_eq_spec (R : Int) (h0 : -2147483596 ≤ R) (h1 : R ≤ 26) :
    ∀ M : List Int, decode_caesar_cipher M R =
      caesar_decode_spec R (print_string M) ++ M.drop (print_string M).length := by
  intro M
  induction M with
  | nil => rfl
  | cons c M ih =>
    by_cases hc : c = 0
    · subst hc
      simp [decode_caesar_cipher, print_string, caesar_decode_spec]
    · rw [print_string_cons_ne c M hc]
      by_cases hU : 65 ≤ c ∧ c ≤ 90
      · have hv : (int_wrap (int_wrap (c - UPPER_INT - R) + 26)).tmod 26 + UPPER_INT =
            (c - 65 - R + 26) % 26 + 65 := by
          unfold UPPER_INT
          rw [int_wrap_of_range (c - 65 - R) (by omega) (by omega),
            int_wrap_of_range _ (by omega) (by omega), Int.tmod_eq_emod (by omega) (by omega)]
        simp only [decode_caesar_cipher, hc, (test_character_upper_iff c).mpr hU,
          caesar_decode_spec, hU, hv, ih]
        simp
      · have hnU : ¬ test_character c = UPPER := by
          rw [test_character_upper_iff]; exact hU
        by_cases hL : 97 ≤ c ∧ c ≤ 122
        · have hv : (int_wrap (int_wrap (c - LOWER_INT - R) + 26)).tmod 26 + LOWER_INT =
              (c - 97 - R + 26) % 26 + 97 := by
            unfold LOWER_INT
            rw [int_wrap_of_range (c - 97 - R) (by omega) (by omega),
              int_wrap_of_range _ (by omega) (by omega),
              Int.tmod_eq_emod (by omega) (by omega)]
          have hLU : ¬ LOWER = UPPER := by decide
          simp only [decode_caesar_cipher, hc, hnU, hLU, (test_character_lower_iff c).mpr hL,
            caesar_decode_spec, hU, hL, hv, ih]
          simp
        · have hnL : ¬ test_character c = LOWER := by
            rw [test_character_lower_iff]; exact hL
          simp [decode_caesar_cipher, hc, hnU, hnL, caesar_decode_spec, hU, hL, ih]

/-! ## Letter case under the Vigenere reference functions -/

theorem vigenere_encode_spec_case (ks : List Int) :
    ∀ (L : List Int) (j i : Nat) (c : Int), L[i]? = some c →
      ∃ d, (vigenere_encode_spec ks j L)[i]? = some d ∧
        (test_character c = UPPER → test_character d = UPPER) ∧
        (test_character c = LOWER → test_character d = LOWER) := by
  intro L
  induction L with
  | nil => intro j i c h; simp at h
  | cons a L ih =>
    intro j i c h
    unfold vigenere_encode_spec
    cases i with
    | zero =>
      obtain rfl : a = c := by simpa using h
      simp only [test_character_upper_iff, test_character_lower_iff]
      split_ifs with hU hL
      · exact ⟨_, List.getElem?_cons_zero, by omega, by omega⟩
      · exact ⟨_, List.getElem?_cons_zero, by omega, by omega⟩
      · exact ⟨_, List.getElem?_cons_zero, by omega, by omega⟩
    | succ i =>
      have h' : L[i]? = some c := by simpa using h
      split_ifs
      · simpa using ih (j + 1) i c h'
      · simpa using ih (j + 1) i c h'
      · simpa using ih j i c h'

theorem vigenere_decode_spec_case (ks : List Int) :
    ∀ (L : List Int) (j i : Nat) (c : Int), L[i]? = some c →
      ∃ d, (vigenere_decode_spec ks j L)[i]? = some d ∧
        (test_character c = UPPER → test_character d = UPPER) ∧
        (test_character c = LOWER → test_character d = LOWER) := by
  intro L
  induction L with
  | nil => intro j i c h; simp at h
  | cons a L ih =>
    intro j i c h
    unfold vigenere_decode_spec
    cases i with
    | zero =>
      obtain rfl : a = c := by simpa using h
      simp only [test_character_upper_iff, test_character_lower_iff]
      split_ifs with hU hL
      · exact ⟨_, List.getElem?_cons_zero, by omega, by omega⟩
      · exact ⟨_, List.getElem?_cons_zero, by omega, by omega⟩
      · exact ⟨_, List.getElem?_cons_zero, by omega, by omega⟩
    | succ i =>
      have h' : L[i]? = some c := by simpa using h
      split_ifs
      · simpa using ih (j + 1) i c h'
      · simpa using ih (j + 1) i c h'
      · simpa using ih j i c h'

theorem encode_vigenere_cipher_eq (M K : List Int) (fuel : Nat)
    (hK : ∃ k ∈ print_string K, isalpha k = true) (hfuel : K.length + 1 ≤ fuel) :
    encode_vigenere_cipher M (to_lower K) fuel =
      some (vigenere_encode_spec (key_letters (to_lower K)) 0 (print_string M) ++
        M.drop (print_string M).length) :=
  encode_vigenere_loop_spec (to_lower K) fuel (key_letters_to_lower_ne_nil K hK)
    (key_letters_to_lower_lower K) (by rw [to_lower_length]; exact hfuel) M false
    (to_lower K) 0 (cyclerAt_start _)

theorem decode_vigenere_cipher_eq (M K : List Int) (fuel : Nat)
    (hK : ∃ k ∈ print_string K, isalpha k = true) (hfuel : K.length + 1 ≤ fuel) :
    decode_vigenere_cipher M (to_lower K) fuel =
      some (vigenere_decode_spec (key_letters (to_lower K)) 0 (print_string M) ++
        M.drop (print_string M).length) :=
  decode_vigenere_loop_spec (to_lower K) fuel (key_letters_to_lower_ne_nil K hK)
    (key_letters_to_lower_lower K) (by rw [to_lower_length]; exact hfuel) M false
    (to_lower K) 0 (cyclerAt_start _)

theorem print_string_eq_self (M : List Int) (h : ∀ c ∈ M, c ≠ 0) : print_string M = M := by
  have := print_string_append M [] h
  simpa [print_string] using this

/-- Both Vigenere transforms keep the case of every letter, for a key whose rendered
characters include a letter. -/
theorem vigenere_case_preserved (M K : List Int) (fuel : Nat)
    (hK : ∃ k ∈ print_string K, isalpha k = true) (hfuel : K.length + 1 ≤ fuel) :
    (∃ E, encode_vigenere_cipher M (to_lower K) fuel = some E ∧
      ∀ (i : Nat) (c : Int), M[i]? = some c → ∃ d, E[i]? = some d ∧
        (test_character c = UPPER → test_character d = UPPER) ∧
        (test_character c = LOWER → test_character d = LOWER)) ∧
    (∃ D, decode_vigenere_cipher M (to_lower K) fuel = some D ∧
      ∀ (i : Nat) (c : Int), M[i]? = some c → ∃ d, D[i]? = some d ∧
        (test_character c = UPPER → test_character d = UPPER) ∧
        (test_character c = LOWER → test_character d = LOWER)) := by
  refine ⟨⟨_, encode_vigenere_cipher_eq M K fuel hK hfuel, ?_⟩,
    ⟨_, decode_vigenere_cipher_eq M K fuel hK hfuel, ?_⟩⟩
  · intro i c hi
    rw [← print_string_append_drop M] at hi
    exact cellwise_append (fun _ => True)
      (fun c d => (test_character c = UPPER → test_character d = UPPER) ∧
        (test_character c = LOWER → test_character d = LOWER))
      (fun _ => ⟨id, id⟩) (print_string M) _ _ (vigenere_encode_spec_length _ _ 0)
      (fun j a hj _ => vigenere_encode_spec_case _ _ 0 j a hj) i c hi trivial
  · intro i c hi
    rw [← print_string_append_drop M] at hi
    exact cellwise_append (fun _ => True)
      (fun c d => (test_character c = UPPER → test_character d = UPPER) ∧
        (test_character c = LOWER → test_character d = LOWER))
      (fun _ => ⟨id, id⟩) (print_string M) _ _ (vigenere_decode_spec_length _ _ 0)
      (fun j a hj _ => vigenere_decode_spec_case _ _ 0 j a hj) i c hi trivial

/-! ## Claims -/

/-- C2. Vigenere round trip: for every message `M` and every key `K` whose rendered characters
include a letter, with the key case-folded by `to_lower` as `main` does and any bound of at
least `K.length + 1` tests on each run of the key-skipping loop, `encode_vigenere_cipher`
returns a sequence `E` and `decode_vigenere_cipher` on `E` returns exactly `M`. -/
theorem vigenere_round_trip (M K : List Int) (fuel : Nat)
    (hK : ∃ k ∈ print_string K, isalpha k = true) (hfuel : K.length + 1 ≤ fuel) :
    ∃ E, encode_vigenere_cipher M (to_lower K) fuel = some E ∧
      decode_vigenere_cipher E (to_lower K) fuel = some M := by
  refine ⟨_, encode_vigenere_cipher_eq M K fuel hK hfuel, ?_⟩
  rw [decode_vigenere_cipher_eq _ K fuel hK hfuel]
  have hps : print_string (vigenere_encode_spec (key_letters (to_lower K)) 0 (print_string M) ++
      M.drop (print_string M).length) =
      vigenere_encode_spec (key_letters (to_lower K)) 0 (print_string M) :=
    print_string_append_of_terminated _ _
      (vigenere_encode_spec_ne_zero _ _ _ (print_string_ne_zero M))
      (character_drop_print_string M)
  rw [hps, vigenere_decode_encode_spec, vigenere_encode_spec_length, List.drop_append_of_le_length
    (by rw [vigenere_encode_spec_length]), ← vigenere_encode_spec_length
    (key_letters (to_lower K)) (print_string M) 0, List.drop_length, List.nil_append,
    vigenere_encode_spec_length, print_string_append_drop]

theorem vigenere_round_trip_witness :
    (∃ k ∈ print_string (cells "Lemon"), isalpha k = true) ∧
    ∃ E, encode_vigenere_cipher (cells "Attack at dawn!") (to_lower (cells "Lemon")) 6 = some E ∧
      decode_vigenere_cipher E (to_lower (cells "Lemon")) 6 = some (cells "Attack at dawn!") :=
  ⟨by decide, vigenere_round_trip (cells "Attack at dawn!") (cells "Lemon") 6 (by decide)
    (by decide)⟩

/-- C6. Vigenere encode equals its reference definition: for every message `M` and every key
`K` whose rendered characters include a letter (key case-folded by `to_lower`), with a bound
of at least `K.length + 1` tests on the key-skipping loop, `encode_vigenere_cipher` returns
the sequence in which the `i`-th alphabetic character `c` of the rendered message is replaced
by `base + ((c - base + (k_(i mod n) - 'a')) mod 26)`, `k_0..k_(n-1)` being the alphabetic
characters of the lowercased key, and in which every other cell is unchanged; for a message
without a NUL cell that is the reference function applied to the whole of `M`. -/
theorem vigenere_encode_matches_reference (M K : List Int) (fuel : Nat)
    (hK : ∃ k ∈ print_string K, isalpha k = true) (hfuel : K.length + 1 ≤ fuel) :
    encode_vigenere_cipher M (to_lower K) fuel =
      some (vigenere_encode_spec (key_letters (to_lower K)) 0 (print_string M) ++
        M.drop (print_string M).length) ∧
    ((∀ c ∈ M, c ≠ 0) → encode_vigenere_cipher M (to_lower K) fuel =
      some (vigenere_encode_spec (key_letters (to_lower K)) 0 M)) := by
  refine ⟨encode_vigenere_cipher_eq M K fuel hK hfuel, fun h => ?_⟩
  rw [encode_vigenere_cipher_eq M K fuel hK hfuel, print_string_eq_self M h]
  simp

theorem vigenere_encode_matches_reference_witness :
    (∃ k ∈ print_string (cells "lemon"), isalpha k = true) ∧
    encode_vigenere_cipher (cells "attackatdawn") (to_lower (cells "lemon")) 6 =
      some (cells "lxfopvefrnhr") :=
  ⟨by decide, ((vigenere_encode_matches_reference (cells "attackatdawn") (cells "lemon") 6
    (by decide) (by decide)).2 (by decide)).trans (by decide)⟩

/-- C7. Vigenere decode equals its reference definition: for every message `C` and every key
`K` whose rendered characters include a letter (key case-folded by `to_lower`), with a bound
of at least `K.length + 1` tests on the key-skipping loop, `decode_vigenere_cipher` returns
the sequence in which the `i`-th alphabetic character `c` of the rendered message is replaced
by `base + ((c - base - (k_(i mod n) - 'a') + 26) mod 26)` and every other cell is
unchanged; for a message without a NUL cell that is the reference function applied to the
whole of `C`. -/
theorem vigenere_decode_matches_reference (C K : List Int) (fuel : Nat)
    (hK : ∃ k ∈ print_string K, isalpha k = true) (hfuel : K.length + 1 ≤ fuel) :
    decode_vigenere_cipher C (to_lower K) fuel =
      some (vigenere_decode_spec (key_letters (to_lower K)) 0 (print_string C) ++
        C.drop (print_string C).length) ∧
    ((∀ c ∈ C, c ≠ 0) → decode_vigenere_cipher C (to_lower K) fuel =
      some (vigenere_decode_spec (key_letters (to_lower K)) 0 C)) := by
  refine ⟨decode_vigenere_cipher_eq C K fuel hK hfuel, fun h => ?_⟩
  rw [decode_vigenere_cipher_eq C K fuel hK hfuel, print_string_eq_self C h]
  simp

theorem vigenere_decode_matches_reference_witness :
    (∃ k ∈ print_string (cells "lemon"), isalpha k = true) ∧
    decode_vigenere_cipher (cells "lxfopvefrnhr") (to_lower (cells "lemon")) 6 =
      some (cells "attackatdawn") :=
  ⟨by decide, ((vigenere_decode_matches_reference (cells "lxfopvefrnhr") (cells "lemon") 6
    (by decide) (by decide)).2 (by decide)).trans (by decide)⟩

/-- C10. Pass-through: for every message `M`, every rotation `R` and every key `K` whose
rendered characters include a letter (case-folded by `to_lower`, the key-skipping loop bounded
by at least `K.length + 1` tests), each of the four transforms returns a sequence in which
every position that holds a non-alphabetic character `c` in `M` still holds `c`. -/
theorem pass_through (M K : List Int) (R : Int) (fuel : Nat)
    (hK : ∃ k ∈ print_string K, isalpha k = true) (hfuel : K.length + 1 ≤ fuel) :
    (∀ (i : Nat) (c : Int), M[i]? = some c → isalpha c = false →
      (encode_caesar_cipher M R)[i]? = some c) ∧
    (∀ (i : Nat) (c : Int), M[i]? = some c → isalpha c = false →
      (decode_caesar_cipher M R)[i]? = some c) ∧
    (∃ E, encode_vigenere_cipher M (to_lower K) fuel = some E ∧
      ∀ (i : Nat) (c : Int), M[i]? = some c → isalpha c = false → E[i]? = some c) ∧
    (∃ D, decode_vigenere_cipher M (to_lower K) fuel = some D ∧
      ∀ (i : Nat) (c : Int), M[i]? = some c → isalpha c = false → D[i]? = some c) := by
  refine ⟨encode_caesar_cipher_pass R M, decode_caesar_cipher_pass R M,
    ⟨_, encode_vigenere_cipher_eq M K fuel hK hfuel, ?_⟩,
    ⟨_, decode_vigenere_cipher_eq M K fuel hK hfuel, ?_⟩⟩
  · intro i c hi hc
    rw [← print_string_append_drop M] at hi
    obtain ⟨d, hd, rfl⟩ := cellwise_append (fun c => isalpha c = false) (fun c d => d = c)
      (fun _ => rfl) (print_string M) _ _ (vigenere_encode_spec_length _ _ 0)
      (fun j a hj ha => ⟨a, vigenere_encode_spec_pass _ _ 0 j a hj ha, rfl⟩) i c hi hc
    exact hd
  · intro i c hi hc
    rw [← print_string_append_drop M] at hi
    obtain ⟨d, hd, rfl⟩ := cellwise_append (fun c => isalpha c = false) (fun c d => d = c)
      (fun _ => rfl) (print_string M) _ _ (vigenere_decode_spec_length _ _ 0)
      (fun j a hj ha => ⟨a, vigenere_decode_spec_pass _ _ 0 j a hj ha, rfl⟩) i c hi hc
    exact hd

theorem pass_through_witness :
    (∃ k ∈ print_string (cells "Lemon"), isalpha k = true) ∧
    (∀ (i : Nat) (c : Int), (cells "At 9, go!")[i]? = some c → isalpha c = false →
      (encode_caesar_cipher (cells "At 9, go!") 3)[i]? = some c) ∧
    (∀ (i : Nat) (c : Int), (cells "At 9, go!")[i]? = some c → isalpha c = false →
      (decode_caesar_cipher (cells "At 9, go!") 3)[i]? = some c) ∧
    (∃ E, encode_vigenere_cipher (cells "At 9, go!") (to_lower (cells "Lemon")) 6 = some E ∧
      ∀ (i : Nat) (c : Int), (cells "At 9, go!")[i]? = some c → isalpha c = false →
        E[i]? = some c) ∧
    (∃ D, decode_vigenere_cipher (cells "At 9, go!") (to_lower (cells "Lemon")) 6 = some D ∧
      ∀ (i : Nat) (c : Int), (cells "At 9, go!")[i]? = some c → isalpha c = false →
        D[i]? = some c) :=
  ⟨by decide, pass_through (cells "At 9, go!") (cells "Lemon") 3 6 (by decide) (by decide)⟩

/-- C1. Caesar round trip fails on the code for rotations outside `0..26`: with rotation
`-1`, `encode_caesar_cipher` turns "A" into "@" and `decode_caesar_cipher` leaves "@" as it
is; with rotation `27`, encoding "Z" gives "A" and decoding that gives "@". -/
theorem caesar_round_trip_fails :
    encode_caesar_cipher (cells "A") (-1) = cells "@" ∧
    decode_caesar_cipher (encode_caesar_cipher (cells "A") (-1)) (-1) = cells "@" ∧
    encode_caesar_cipher (cells "Z") 27 = cells "A" ∧
    decode_caesar_cipher (encode_caesar_cipher (cells "Z") 27) 27 = cells "@" := by
  decide

/-- C3. Caesar encode against its reference formula: at rotation `3` the code maps
"Attack at Dawn" to "Dwwdfn dw Gdzq" as the reference does, but at rotation `-1` the code maps
"A" to "@" where the reference formula, with its true modulo, gives "Z". -/
theorem caesar_encode_differs_from_reference :
    encode_caesar_cipher (cells "Attack at Dawn") 3 = cells "Dwwdfn dw Gdzq" ∧
    caesar_encode_spec 3 (cells "Attack at Dawn") = cells "Dwwdfn dw Gdzq" ∧
    encode_caesar_cipher (cells "A") (-1) = cells "@" ∧
    caesar_encode_spec (-1) (cells "A") = cells "Z" := by
  decide

/-- C4. Caesar decode against its reference formula: at rotation `3` the code maps
"Dwwdfn dw Gdzq" to "Attack at Dawn" as the reference does, but at rotation `27` the code maps
"A" to "@", not a letter, where the reference formula gives "Z". -/
theorem caesar_decode_differs_from_reference :
    decode_caesar_cipher (cells "Dwwdfn dw Gdzq") 3 = cells "Attack at Dawn" ∧
    caesar_decode_spec 3 (cells "Dwwdfn dw Gdzq") = cells "Attack at Dawn" ∧
    decode_caesar_cipher (cells "A") 27 = cells "@" ∧
    caesar_decode_spec 27 (cells "A") = cells "Z" ∧
    isalpha 64 = false := by
  decide

/-- C5. Rotation normalization fails on the code for a negative rotation: encoding "A" with
rotation `26` gives "A", but encoding "A" with rotation `-1` gives "@" while encoding it with
`-1 mod 26 = 25` gives "Z". -/
theorem caesar_rotation_not_normalized :
    encode_caesar_cipher (cells "A") 26 = cells "A" ∧
    encode_caesar_cipher (cells "A") (-1) = cells "@" ∧
    (-1 : Int) % 26 = 25 ∧
    encode_caesar_cipher (cells "A") 25 = cells "Z" := by
  decide

/-- C8. Invalid key handling: with the key "123", which has no letter, and the message "a",
the key-skipping loop of `encode_vigenere_cipher` and of `decode_vigenere_cipher` is still
running after any number of tests, so neither function returns; on the empty message both
return at once, with nothing reported. -/
theorem invalid_key_never_returns (fuel : Nat) :
    encode_vigenere_cipher (cells "a") (to_lower (cells "123")) fuel = none ∧
    decode_vigenere_cipher (cells "a") (to_lower (cells "123")) fuel = none ∧
    encode_vigenere_cipher (cells "") (to_lower (cells "123")) fuel = some (cells "") ∧
    decode_vigenere_cipher (cells "") (to_lower (cells "123")) fuel = some (cells "") := by
  have hkey : to_lower (cells "123") = [49, 50, 51] := by decide
  have hmsg : cells "a" = [97] := by decide
  have hempty : cells "" = [] := by decide
  have hn : key_letters [49, 50, 51] = [] := by decide
  have hc := cycle_key_no_letter [49, 50, 51] hn fuel [49, 50, 51] ⟨[], rfl, by simp⟩
  rw [hkey, hmsg, hempty]
  refine ⟨?_, ?_, rfl, rfl⟩
  · simp [encode_vigenere_cipher, encode_vigenere_loop, hc]
  · simp [decode_vigenere_cipher, decode_vigenere_loop, hc]

/-- C9. Case preservation fails on the code for the Caesar transforms with a rotation outside
`0..26`: `encode_caesar_cipher` with rotation `-1` puts "@", not a letter, where the input
holds the uppercase "A", and `decode_caesar_cipher` with rotation `27` puts a backquote where
the input holds the lowercase "a". -/
theorem caesar_case_not_preserved :
    test_character 65 = UPPER ∧
    encode_caesar_cipher [65] (-1) = [64] ∧ test_character 64 = NEITHER ∧
    test_character 97 = LOWER ∧
    decode_caesar_cipher [97] 27 = [96] ∧ test_character 96 = NEITHER := by
  decide

/-! ## Classification and lowercasing -/

/-- C18. Character classification: for every character value `c`, `test_character c` is
`UPPER` exactly when `c` is in `'A'..'Z'`, `LOWER` exactly when `c` is in `'a'..'z'`, and
`NEITHER` exactly in every other case; the three results are distinct, so each `c` gets
exactly one of them. -/
theorem test_character_classifies (c : Int) :
    (test_character c = UPPER ↔ 65 ≤ c ∧ c ≤ 90) ∧
    (test_character c = LOWER ↔ 97 ≤ c ∧ c ≤ 122) ∧
    (test_character c = NEITHER ↔ ¬ (65 ≤ c ∧ c ≤ 90) ∧ ¬ (97 ≤ c ∧ c ≤ 122)) ∧
    UPPER ≠ LOWER ∧ UPPER ≠ NEITHER ∧ LOWER ≠ NEITHER := by
  refine ⟨test_character_upper_iff c, test_character_lower_iff c, ?_, by decide, by decide,
    by decide⟩
  unfold test_character UPPER LOWER NEITHER
  split_ifs <;> simp <;> omega

theorem to_lower_eq (S : List Int) :
    to_lower S = (print_string S).map tolower ++ S.drop (print_string S).length := by
  induction S with
  | nil => rfl
  | cons a S ih =>
    by_cases h : a = 0
    · simp [to_lower, print_string, h]
    · simp [to_lower, print_string, h, ih]

theorem tolower_tolower (c : Int) : tolower (tolower c) = tolower c := by
  unfold tolower
  split_ifs <;> omega

theorem to_lower_to_lower (S : List Int) : to_lower (to_lower S) = to_lower S := by
  induction S with
  | nil => rfl
  | cons a S ih =>
    by_cases h : a = 0
    · simp [to_lower, h]
    · simp [to_lower, h, tolower_ne_zero a h, tolower_tolower, ih]

/-- C19. Lowercasing: for every cell list, `to_lower` replaces each rendered uppercase letter
`'A'..'Z'` by the corresponding lowercase letter (`c + 32`) and leaves every other cell
unchanged at its position, the cells from the first terminator on included; applying it twice
gives the same as applying it once. -/
theorem to_lower_lowercases (S : List Int) :
    to_lower S = (print_string S).map (fun c => if 65 ≤ c ∧ c ≤ 90 then c + 32 else c) ++
      S.drop (print_string S).length ∧
    (to_lower S).length = S.length ∧
    to_lower (to_lower S) = to_lower S := by
  refine ⟨?_, to_lower_length S, to_lower_to_lower S⟩
  rw [to_lower_eq]
  rfl

/-! ## Caesar round trip for rotations `0..26` -/

theorem caesar_encode_spec_length (R : Int) :
    ∀ L : List Int, (caesar_encode_spec R L).length = L.length := by
  intro L
  induction L with
  | nil => rfl
  | cons c L ih =>
    unfold caesar_encode_spec
    split_ifs <;> simp [ih]

theorem caesar_encode_spec_ne_zero (R : Int) :
    ∀ L : List Int, (∀ x ∈ L, x ≠ 0) → ∀ x ∈ caesar_encode_spec R L, x ≠ 0 := by
  intro L
  induction L with
  | nil => intro _ x hx; simp [caesar_encode_spec] at hx
  | cons c L ih =>
    intro hL x hx
    have hc := hL c (List.mem_cons_self _ _)
    have hrest := ih (fun y hy => hL y (List.mem_cons_of_mem _ hy))
    unfold caesar_encode_spec at hx
    split_ifs at hx
    · rcases List.mem_cons.mp hx with rfl | hx
      · omega
      · exact hrest x hx
    · rcases List.mem_cons.mp hx with rfl | hx
      · omega
      · exact hrest x hx
    · rcases List.mem_cons.mp hx with rfl | hx
      · exact hc
      · exact hrest x hx

theorem caesar_decode_encode_spec (R : Int) :
    ∀ L : List Int, caesar_decode_spec R (caesar_encode_spec R L) = L := by
  intro L
  induction L with
  | nil => rfl
  | cons c L ih =>
    by_cases hU : 65 ≤ c ∧ c ≤ 90
    · have h1 : 65 ≤ (c - 65 + R) % 26 + 65 ∧ (c - 65 + R) % 26 + 65 ≤ 90 := by omega
      simp only [caesar_encode_spec, hU, caesar_decode_spec, h1, ih]
      simp
      omega
    · by_cases hL : 97 ≤ c ∧ c ≤ 122
      · have h1 : ¬ (65 ≤ (c - 97 + R) % 26 + 97 ∧ (c - 97 + R) % 26 + 97 ≤ 90) := by omega
        have h2 : 97 ≤ (c - 97 + R) % 26 + 97 ∧ (c - 97 + R) % 26 + 97 ≤ 122 := by omega
        simp only [caesar_encode_spec, hU, hL, caesar_decode_spec, h1, h2, ih]
        simp
        omega
      · simp [caesar_encode_spec, hU, hL, caesar_decode_spec, ih]

/-- C20. Restricted Caesar round trip: for every cell list `M` and every rotation `R` with
`0 ≤ R ≤ 26`, `decode_caesar_cipher` with `R` applied to the result of `encode_caesar_cipher`
with `R` on `M` gives exactly `M`, the remainder being C's truncating `%` as written. -/
theorem caesar_round_trip_in_range (M : List Int) (R : Int) (h0 : 0 ≤ R) (h26 : R ≤ 26) :
    decode_caesar_cipher (encode_caesar_cipher M R) R = M := by
  rw [encode_caesar_cipher_eq_spec R h0 (by omega) M,
    decode_caesar_cipher_eq_spec R (by omega) h26]
  have hps : print_string (caesar_encode_spec R (print_string M) ++
      M.drop (print_string M).length) = caesar_encode_spec R (print_string M) :=
    print_string_append_of_terminated _ _
      (caesar_encode_spec_ne_zero R _ (print_string_ne_zero M))
      (character_drop_print_string M)
  rw [hps, caesar_decode_encode_spec, caesar_encode_spec_length, List.drop_append_of_le_length
    (by rw [caesar_encode_spec_length]), ← caesar_encode_spec_length R (print_string M),
    List.drop_length, List.nil_append, caesar_encode_spec_length, print_string_append_drop]

theorem caesar_round_trip_in_range_witness :
    (0 : Int) ≤ 26 ∧ (26 : Int) ≤ 26 ∧ (0 : Int) ≤ 3 ∧ (3 : Int) ≤ 26 ∧
    decode_caesar_cipher (encode_caesar_cipher (cells "Xyz, Attack at Dawn!") 3) 3 =
      cells "Xyz, Attack at Dawn!" ∧
    decode_caesar_cipher (encode_caesar_cipher (cells "Zebra") 26) 26 = cells "Zebra" :=
  ⟨by decide, by decide, by decide, by decide,
    caesar_round_trip_in_range (cells "Xyz, Attack at Dawn!") 3 (by decide) (by decide),
    caesar_round_trip_in_range (cells "Zebra") 26 (by decide) (by decide)⟩

/-! ## Non-alphabetic message characters and the key cursor -/

theorem vigenere_encode_spec_filter (ks : List Int) :
    ∀ (L : List Int) (i : Nat),
      (vigenere_encode_spec ks i L).filter isalpha =
        vigenere_encode_spec ks i (L.filter isalpha) := by
  intro L
  induction L with
  | nil => intro i; rfl
  | cons c L ih =>
    intro i
    by_cases hU : 65 ≤ c ∧ c ≤ 90
    · have hal : isalpha c = true := (isalpha_iff c).mpr (Or.inl hU)
      have hd : isalpha (65 + (c - 65 + (ks.getD (i % ks.length) 0 - 97)) % 26) = true :=
        (isalpha_iff _).mpr (Or.inl (by omega))
      simp only [vigenere_encode_spec, hU, List.filter, hal, hd, ih, if_true, and_self]
    · by_cases hL : 97 ≤ c ∧ c ≤ 122
      · have hal : isalpha c = true := (isalpha_iff c).mpr (Or.inr hL)
        have hd : isalpha (97 + (c - 97 + (ks.getD (i % ks.length) 0 - 97)) % 26) = true :=
          (isalpha_iff _).mpr (Or.inr (by omega))
        simp only [vigenere_encode_spec, hU, hL, List.filter, hal, hd, ih, if_true, if_false, and_self]
      · have hal : isalpha c = false := (isalpha_false_iff c).mpr (by tauto)
        simp only [vigenere_encode_spec, hU, hL, List.filter, hal, ih, if_false]

theorem vigenere_decode_spec_filter (ks : List Int) :
    ∀ (L : List Int) (i : Nat),
      (vigenere_decode_spec ks i L).filter isalpha =
        vigenere_decode_spec ks i (L.filter isalpha) := by
  intro L
  induction L with
  | nil => intro i; rfl
  | cons c L ih =>
    intro i
    by_cases hU : 65 ≤ c ∧ c ≤ 90
    · have hal : isalpha c = true := (isalpha_iff c).mpr (Or.inl hU)
      have hd : isalpha (65 + (c - 65 - (ks.getD (i % ks.length) 0 - 97) + 26) % 26) = true :=
        (isalpha_iff _).mpr (Or.inl (by omega))
      simp only [vigenere_decode_spec, hU, List.filter, hal, hd, ih, if_true, and_self]
    · by_cases hL : 97 ≤ c ∧ c ≤ 122
      · have hal : isalpha c = true := (isalpha_iff c).mpr (Or.inr hL)
        have hd : isalpha (97 + (c - 97 - (ks.getD (i % ks.length) 0 - 97) + 26) % 26) = true :=
          (isalpha_iff _).mpr (Or.inr (by omega))
        simp only [vigenere_decode_spec, hU, hL, List.filter, hal, hd, ih, if_true, if_false, and_self]
      · have hal : isalpha c = false := (isalpha_false_iff c).mpr (by tauto)
        simp only [vigenere_decode_spec, hU, hL, List.filter, hal, ih, if_false]

theorem vigenere_decode_spec_ne_zero (ks : List Int) :
    ∀ (L : List Int) (i : Nat), (∀ x ∈ L, x ≠ 0) →
      ∀ x ∈ vigenere_decode_spec ks i L, x ≠ 0 := by
  intro L
  induction L with
  | nil => intro i _ x hx; simp [vigenere_decode_spec] at hx
  | cons c L ih =>
    intro i hL x hx
    have hc := hL c (List.mem_cons_self _ _)
    have hrest := fun j => ih j (fun y hy => hL y (List.mem_cons_of_mem _ hy))
    unfold vigenere_decode_spec at hx
    split_ifs at hx
    · rcases List.mem_cons.mp hx with rfl | hx
      · omega
      · exact hrest _ x hx
    · rcases List.mem_cons.mp hx with rfl | hx
      · omega
      · exact hrest _ x hx
    · rcases List.mem_cons.mp hx with rfl | hx
      · exact hc
      · exact hrest _ x hx

theorem letters_ne_zero (L : List Int) : ∀ x ∈ L.filter isalpha, x ≠ 0 := by
  intro x hx h0
  have := (List.mem_filter.mp hx).2
  rw [h0] at this
  exact absurd this (by decide)

/-- C11. Non-alphabetic message characters never consume a key character: for every message
`M` and every key `K` whose rendered characters include a letter (case-folded by `to_lower`,
key-skipping loop bounded by at least `K.length + 1` tests), the alphabetic characters of the
rendered result of `encode_vigenere_cipher` on `M`, in order, are the result of
`encode_vigenere_cipher` on the rendered `M` with its non-alphabetic characters removed; the
same holds for `decode_vigenere_cipher`. -/
theorem nonalpha_consumes_no_key (M K : List Int) (fuel : Nat)
    (hK : ∃ k ∈ print_string K, isalpha k = true) (hfuel : K.length + 1 ≤ fuel) :
    (∃ E E', encode_vigenere_cipher M (to_lower K) fuel = some E ∧
      encode_vigenere_cipher ((print_string M).filter isalpha) (to_lower K) fuel = some E' ∧
      (print_string E).filter isalpha = E') ∧
    (∃ D D', decode_vigenere_cipher M (to_lower K) fuel = some D ∧
      decode_vigenere_cipher ((print_string M).filter isalpha) (to_lower K) fuel = some D' ∧
      (print_string D).filter isalpha = D') := by
  have hself : print_string ((print_string M).filter isalpha) = (print_string M).filter isalpha :=
    print_string_eq_self _ (letters_ne_zero _)
  constructor
  · refine ⟨_, _, encode_vigenere_cipher_eq M K fuel hK hfuel,
      encode_vigenere_cipher_eq _ K fuel hK hfuel, ?_⟩
    rw [print_string_append_of_terminated _ _
      (vigenere_encode_spec_ne_zero _ _ _ (print_string_ne_zero M))
      (character_drop_print_string M), vigenere_encode_spec_filter, hself]
    simp
  · refine ⟨_, _, decode_vigenere_cipher_eq M K fuel hK hfuel,
      decode_vigenere_cipher_eq _ K fuel hK hfuel, ?_⟩
    rw [print_string_append_of_terminated _ _
      (vigenere_decode_spec_ne_zero _ _ _ (print_string_ne_zero M))
      (character_drop_print_string M), vigenere_decode_spec_filter, hself]
    simp

theorem nonalpha_consumes_no_key_witness :
    (∃ k ∈ print_string (cells "lemon"), isalpha k = true) ∧
    (print_string (cells "at-tack")).filter isalpha = cells "attack" ∧
    (∃ E E', encode_vigenere_cipher (cells "at-tack") (to_lower (cells "lemon")) 6 = some E ∧
      encode_vigenere_cipher ((print_string (cells "at-tack")).filter isalpha)
        (to_lower (cells "lemon")) 6 = some E' ∧
      (print_string E).filter isalpha = E') ∧
    (∃ D D', decode_vigenere_cipher (cells "at-tack") (to_lower (cells "lemon")) 6 = some D ∧
      decode_vigenere_cipher ((print_string (cells "at-tack")).filter isalpha)
        (to_lower (cells "lemon")) 6 = some D' ∧
      (print_string D).filter isalpha = D') :=
  ⟨by decide, by decide,
    nonalpha_consumes_no_key (cells "at-tack") (cells "lemon") 6 (by decide) (by decide)⟩

/-! ## Case of the key -/

theorem tolower_eq_zero_iff (c : Int) : tolower c = 0 ↔ c = 0 := by
  unfold tolower
  split_ifs <;> omega

theorem print_string_map_tolower (K : List Int) :
    print_string (K.map tolower) = (print_string K).map tolower := by
  induction K with
  | nil => rfl
  | cons a K ih =>
    by_cases h : a = 0
    · subst h
      have : tolower 0 = 0 := by decide
      simp [print_string, this]
    · have h' : tolower a ≠ 0 := tolower_ne_zero a h
      simp [print_string, h, h', ih]

theorem key_letters_to_lower_congr (K K' : List Int) (hcase : K'.map tolower = K.map tolower) :
    key_letters (to_lower K') = key_letters (to_lower K) := by
  unfold key_letters
  rw [print_string_to_lower, print_string_to_lower, ← print_string_map_tolower,
    ← print_string_map_tolower, hcase]

theorem has_letter_of_key_letters (K : List Int) (h : key_letters (to_lower K) ≠ []) :
    ∃ k ∈ print_string K, isalpha k = true := by
  rw [key_letters_to_lower] at h
  have h2 : key_letters K ≠ [] := by
    intro h3
    rw [h3] at h
    exact h rfl
  obtain ⟨k, hk⟩ := List.exists_mem_of_ne_nil _ h2
  exact ⟨k, (List.mem_filter.mp hk).1, (List.mem_filter.mp hk).2⟩

/-- C12. Key case does not matter: for every message `M` and every two keys `K`, `K'` that
agree up to the case of their letters, `K` having a rendered letter, the program (which
case-folds the key with `to_lower` before it runs the cipher) returns the same result for both
keys, in encoding and in decoding; in particular the result for `K` is the result for the
lowercased key `to_lower K`. -/
theorem key_case_does_not_matter (M K K' : List Int) (fuel : Nat)
    (hcase : K'.map tolower = K.map tolower)
    (hK : ∃ k ∈ print_string K, isalpha k = true) (hfuel : K.length + 1 ≤ fuel) :
    ∃ E D, encode_vigenere_cipher M (to_lower K) fuel = some E ∧
      encode_vigenere_cipher M (to_lower K') fuel = some E ∧
      encode_vigenere_cipher M (to_lower (to_lower K)) fuel = some E ∧
      decode_vigenere_cipher M (to_lower K) fuel = some D ∧
      decode_vigenere_cipher M (to_lower K') fuel = some D ∧
      decode_vigenere_cipher M (to_lower (to_lower K)) fuel = some D := by
  have hkl := key_letters_to_lower_congr K K' hcase
  have hK' : ∃ k ∈ print_string K', isalpha k = true :=
    has_letter_of_key_letters K' (by rw [hkl]; exact key_letters_to_lower_ne_nil K hK)
  have hlen : K'.length = K.length := by
    have := congrArg List.length hcase
    simpa using this
  refine ⟨_, _, encode_vigenere_cipher_eq M K fuel hK hfuel, ?_, ?_,
    decode_vigenere_cipher_eq M K fuel hK hfuel, ?_, ?_⟩
  · rw [encode_vigenere_cipher_eq M K' fuel hK' (by omega), hkl]
  · rw [to_lower_to_lower]
    exact encode_vigenere_cipher_eq M K fuel hK hfuel
  · rw [decode_vigenere_cipher_eq M K' fuel hK' (by omega), hkl]
  · rw [to_lower_to_lower]
    exact decode_vigenere_cipher_eq M K fuel hK hfuel

theorem key_case_does_not_matter_witness :
    (cells "lemon").map tolower = (cells "LEMON").map tolower ∧
    (∃ k ∈ print_string (cells "LEMON"), isalpha k = true) ∧
    encode_vigenere_cipher (cells "attackatdawn") (to_lower (cells "LEMON")) 6 =
      some (cells "lxfopvefrnhr") ∧
    encode_vigenere_cipher (cells "attackatdawn") (to_lower (cells "lemon")) 6 =
      some (cells "lxfopvefrnhr") ∧
    ∃ E D, encode_vigenere_cipher (cells "attackatdawn") (to_lower (cells "LEMON")) 6 = some E ∧
      encode_vigenere_cipher (cells "attackatdawn") (to_lower (cells "lemon")) 6 = some E ∧
      encode_vigenere_cipher (cells "attackatdawn") (to_lower (to_lower (cells "LEMON"))) 6 =
        some E ∧
      decode_vigenere_cipher (cells "attackatdawn") (to_lower (cells "LEMON")) 6 = some D ∧
      decode_vigenere_cipher (cells "attackatdawn") (to_lower (cells "lemon")) 6 = some D ∧
      decode_vigenere_cipher (cells "attackatdawn") (to_lower (to_lower (cells "LEMON"))) 6 =
        some D :=
  ⟨by decide, by decide, by decide, by decide,
    key_case_does_not_matter (cells "attackatdawn") (cells "LEMON") (cells "lemon") 6
      (by decide) (by decide) (by decide)⟩

/-! ## Cells are overwritten in place -/

theorem tmod_26_bounds (x : Int) : -26 < x.tmod 26 ∧ x.tmod 26 < 26 := by
  by_cases h : 0 ≤ x
  · rw [Int.tmod_eq_emod h (by decide)]
    omega
  · have h1 : x.tmod 26 < 26 := Int.tmod_lt_of_pos x (by decide)
    have h2 : (-x).tmod 26 = (-x) % 26 := Int.tmod_eq_emod (by omega) (by decide)
    have h3 : x.tmod 26 = x - 26 * x.tdiv 26 := Int.tmod_def x 26
    have h4 : (-x).tmod 26 = -x - 26 * (-x).tdiv 26 := Int.tmod_def (-x) 26
    have h5 : (-x).tdiv 26 = -(x.tdiv 26) := Int.neg_tdiv x 26
    omega

theorem overwritten_of_forall₂ (M out : List Int)
    (h : List.Forall₂ (fun c d : Int => (d = 0 ↔ c = 0)) M out) : OverwrittenInPlace M out := by
  induction h with
  | nil => exact ⟨rfl, by simp, rfl⟩
  | @cons c d M out hcd _ ih =>
    obtain ⟨hlen, hidx, hps⟩ := ih
    refine ⟨by simp [hlen], ?_, ?_⟩
    · intro i a b ha hb
      cases i with
      | zero =>
        have h1 : c = a := by simpa using ha
        have h2 : d = b := by simpa using hb
        rw [← h1, ← h2]
        exact hcd
      | succ i => exact hidx i a b (by simpa using ha) (by simpa using hb)
    · by_cases hc : c = 0
      · have hd : d = 0 := hcd.mpr hc
        simp [print_string, hc, hd]
      · have hd : d ≠ 0 := fun h0 => hc (hcd.mp h0)
        simp [print_string, hc, hd, hps]

theorem forall₂_nz_refl (L : List Int) :
    List.Forall₂ (fun c d : Int => (d = 0 ↔ c = 0)) L L := by
  induction L with
  | nil => exact List.Forall₂.nil
  | cons a L ih => exact List.Forall₂.cons Iff.rfl ih

theorem forall₂_nz_append (X Y rest : List Int)
    (h : List.Forall₂ (fun c d : Int => (d = 0 ↔ c = 0)) X Y) :
    List.Forall₂ (fun c d : Int => (d = 0 ↔ c = 0)) (X ++ rest) (Y ++ rest) := by
  induction h with
  | nil => exact forall₂_nz_refl rest
  | cons hcd _ ih => exact List.Forall₂.cons hcd ih

theorem to_lower_forall₂ (S : List Int) :
    List.Forall₂ (fun c d : Int => (d = 0 ↔ c = 0)) S (to_lower S) := by
  induction S with
  | nil => exact List.Forall₂.nil
  | cons a S ih =>
    unfold to_lower
    split_ifs with h
    · exact forall₂_nz_refl _
    · exact List.Forall₂.cons (tolower_eq_zero_iff a) ih

theorem encode_caesar_cipher_forall₂ (R : Int) (M : List Int) :
    List.Forall₂ (fun c d : Int => (d = 0 ↔ c = 0)) M (encode_caesar_cipher M R) := by
  induction M with
  | nil => exact List.Forall₂.nil
  | cons a M ih =>
    unfold encode_caesar_cipher
    split_ifs with h hU hL
    · exact forall₂_nz_refl _
    · refine List.Forall₂.cons ?_ ih
      have := tmod_26_bounds (int_wrap (a - UPPER_INT + R))
      unfold UPPER_INT at *
      constructor <;> intro <;> omega
    · refine List.Forall₂.cons ?_ ih
      have := tmod_26_bounds (int_wrap (a - LOWER_INT + R))
      unfold LOWER_INT at *
      constructor <;> intro <;> omega
    · exact List.Forall₂.cons Iff.rfl ih

theorem decode_caesar_cipher_forall₂ (R : Int) (M : List Int) :
    List.Forall₂ (fun c d : Int => (d = 0 ↔ c = 0)) M (decode_caesar_cipher M R) := by
  induction M with
  | nil => exact List.Forall₂.nil
  | cons a M ih =>
    unfold decode_caesar_cipher
    split_ifs with h hU hL
    · exact forall₂_nz_refl _
    · refine List.Forall₂.cons ?_ ih
      have := tmod_26_bounds (int_wrap (int_wrap (a - UPPER_INT - R) + 26))
      unfold UPPER_INT at *
      constructor <;> intro <;> omega
    · refine List.Forall₂.cons ?_ ih
      have := tmod_26_bounds (int_wrap (int_wrap (a - LOWER_INT - R) + 26))
      unfold LOWER_INT at *
      constructor <;> intro <;> omega
    · exact List.Forall₂.cons Iff.rfl ih

theorem vigenere_encode_spec_forall₂ (ks : List Int) :
    ∀ (L : List Int) (i : Nat),
      List.Forall₂ (fun c d : Int => (d = 0 ↔ c = 0)) L (vigenere_encode_spec ks i L) := by
  intro L
  induction L with
  | nil => intro i; exact List.Forall₂.nil
  | cons a L ih =>
    intro i
    unfold vigenere_encode_spec
    split_ifs with hU hL
    · exact List.Forall₂.cons (by constructor <;> intro <;> omega) (ih _)
    · exact List.Forall₂.cons (by constructor <;> intro <;> omega) (ih _)
    · exact List.Forall₂.cons Iff.rfl (ih _)

theorem vigenere_decode_spec_forall₂ (ks : List Int) :
    ∀ (L : List Int) (i : Nat),
      List.Forall₂ (fun c d : Int => (d = 0 ↔ c = 0)) L (vigenere_decode_spec ks i L) := by
  intro L
  induction L with
  | nil => intro i; exact List.Forall₂.nil
  | cons a L ih =>
    intro i
    unfold vigenere_decode_spec
    split_ifs with hU hL
    · exact List.Forall₂.cons (by constructor <;> intro <;> omega) (ih _)
    · exact List.Forall₂.cons (by constructor <;> intro <;> omega) (ih _)
    · exact List.Forall₂.cons Iff.rfl (ih _)

/-- C13. Length and order invariant: `to_lower`, `encode_caesar_cipher` and
`decode_caesar_cipher` for every integer rotation, and `encode_vigenere_cipher` and
`decode_vigenere_cipher` for every key whose rendered characters include a letter (case-folded
by `to_lower`, key-skipping loop bounded by at least `K.length + 1` tests) only overwrite cells
in place: the result has as many cells, no cell that held a character holds `'\0'` afterwards,
and `print_string` renders as many characters as before. -/
theorem transforms_overwrite_in_place (M K : List Int) (R : Int) (fuel : Nat)
    (hK : ∃ k ∈ print_string K, isalpha k = true) (hfuel : K.length + 1 ≤ fuel) :
    OverwrittenInPlace M (to_lower M) ∧
    OverwrittenInPlace M (encode_caesar_cipher M R) ∧
    OverwrittenInPlace M (decode_caesar_cipher M R) ∧
    (∃ E, encode_vigenere_cipher M (to_lower K) fuel = some E ∧ OverwrittenInPlace M E) ∧
    (∃ D, decode_vigenere_cipher M (to_lower K) fuel = some D ∧ OverwrittenInPlace M D) := by
  refine ⟨overwritten_of_forall₂ _ _ (to_lower_forall₂ M),
    overwritten_of_forall₂ _ _ (encode_caesar_cipher_forall₂ R M),
    overwritten_of_forall₂ _ _ (decode_caesar_cipher_forall₂ R M),
    ⟨_, encode_vigenere_cipher_eq M K fuel hK hfuel, ?_⟩,
    ⟨_, decode_vigenere_cipher_eq M K fuel hK hfuel, ?_⟩⟩
  · have h := forall₂_nz_append _ _ (M.drop (print_string M).length)
      (vigenere_encode_spec_forall₂ (key_letters (to_lower K)) (print_string M) 0)
    rw [print_string_append_drop] at h
    exact overwritten_of_forall₂ _ _ h
  · have h := forall₂_nz_append _ _ (M.drop (print_string M).length)
      (vigenere_decode_spec_forall₂ (key_letters (to_lower K)) (print_string M) 0)
    rw [print_string_append_drop] at h
    exact overwritten_of_forall₂ _ _ h

theorem transforms_overwrite_in_place_witness :
    (∃ k ∈ print_string (cells "Lemon"), isalpha k = true) ∧
    OverwrittenInPlace (cells "At 9, Go!") (to_lower (cells "At 9, Go!")) ∧
    OverwrittenInPlace (cells "At 9, Go!") (encode_caesar_cipher (cells "At 9, Go!") (-40)) ∧
    OverwrittenInPlace (cells "At 9, Go!") (decode_caesar_cipher (cells "At 9, Go!") (-40)) ∧
    (∃ E, encode_vigenere_cipher (cells "At 9, Go!") (to_lower (cells "Lemon")) 6 = some E ∧
      OverwrittenInPlace (cells "At 9, Go!") E) ∧
    (∃ D, decode_vigenere_cipher (cells "At 9, Go!") (to_lower (cells "Lemon")) 6 = some D ∧
      OverwrittenInPlace (cells "At 9, Go!") D) :=
  ⟨by decide,
    transforms_overwrite_in_place (cells "At 9, Go!") (cells "Lemon") (-40) 6 (by decide)
      (by decide)⟩

/-- C14. Empty message: on the character cells of a freshly created sequence (none),
`encode_caesar_cipher` and `decode_caesar_cipher` with every integer rotation, and
`encode_vigenere_cipher` and `decode_vigenere_cipher` with every key and every bound on the
key-skipping loop, return, and the message they leave is empty. -/
theorem empty_message_stays_empty (K : List Int) (R : Int) (fuel : Nat) :
    next_character create_string = [] ∧
    print_string (next_character create_string) = [] ∧
    encode_caesar_cipher (next_character create_string) R = [] ∧
    decode_caesar_cipher (next_character create_string) R = [] ∧
    encode_vigenere_cipher (next_character create_string) (to_lower K) fuel = some [] ∧
    decode_vigenere_cipher (next_character create_string) (to_lower K) fuel = some [] :=
  ⟨rfl, rfl, rfl, rfl, rfl, rfl⟩

/-! ## Reading a line -/

theorem get_string_loop_line (rest held : List Int) :
    ∀ (L : List Int) (fuel : Nat) (new_character : Int) (linked : List Int),
      (∀ c ∈ L, c ≠ 10) → L.length + 1 ≤ fuel →
      get_string_loop fuel new_character (L ++ 10 :: rest) linked held =
        some (linked ++ L ++ held, rest) := by
  intro L
  induction L with
  | nil =>
    intro fuel nc linked _ hf
    obtain ⟨f, rfl⟩ : ∃ f, fuel = f + 1 := ⟨fuel - 1, by simp at hf; omega⟩
    simp [get_string_loop, fgets]
  | cons a L ih =>
    intro fuel nc linked hL hf
    obtain ⟨f, rfl⟩ : ∃ f, fuel = f + 1 := ⟨fuel - 1, by simp at hf; omega⟩
    have ha : a ≠ 10 := hL a (List.mem_cons_self _ _)
    have hrec := ih f a (linked ++ [a]) (fun c hc => hL c (List.mem_cons_of_mem _ hc))
      (by simp at hf ⊢; omega)
    simp [get_string_loop, fgets, ha, hrec]

theorem get_string_loop_eof (held : List Int) :
    ∀ (fuel : Nat) (new_character : Int) (linked : List Int), new_character ≠ 10 →
      get_string_loop fuel new_character [] linked held = none := by
  intro fuel
  induction fuel with
  | zero => intro _ _ _; rfl
  | succ f ih =>
    intro nc linked hnc
    simp [get_string_loop, fgets, hnc, ih nc _ hnc]

/-- When the stream ends before a newline, the loop of `get_string` is still running after
any number of tests. -/
theorem get_string_loop_no_newline (held : List Int) :
    ∀ (L : List Int) (fuel : Nat) (new_character : Int) (linked : List Int),
      (∀ c ∈ L, c ≠ 10) → (L ≠ [] ∨ new_character ≠ 10) →
      get_string_loop fuel new_character L linked held = none := by
  intro L
  induction L with
  | nil =>
    intro fuel nc linked _ h
    rcases h with h | h
    · exact absurd rfl h
    · exact get_string_loop_eof held fuel nc linked h
  | cons a L ih =>
    intro fuel nc linked hL _
    have ha : a ≠ 10 := hL a (List.mem_cons_self _ _)
    cases fuel with
    | zero => rfl
    | succ f =>
      have hrec := ih f a (linked ++ [a]) (fun c hc => hL c (List.mem_cons_of_mem _ hc))
        (Or.inr ha)
      simp [get_string_loop, fgets, ha, hrec]

theorem get_key_loop_eq :
    ∀ (fuel : Nat) (new_character : Int) (stdin linked held : List Int),
      get_key_loop fuel new_character stdin linked held =
        get_string_loop fuel new_character stdin linked held := by
  intro fuel
  induction fuel with
  | zero => intro _ _ _ _; rfl
  | succ f ih =>
    intro nc stdin linked held
    simp [get_key_loop, get_string_loop, ih]

/-- C15, as the code has it. Reading a line: for every input stream whose content after the
leading white space is a run `L` of characters with no newline, followed by a newline,
`get_string` on a freshly created sequence returns with the cells after the header holding
exactly `L`, in order, the newline consumed and not appended; when `L` has no NUL character,
`print_string`, which starts after the header cell, renders exactly `L`. -/
theorem get_string_reads_line (stdin L rest : List Int) (new_character : Int) (fuel : Nat)
    (hline : scanf_space stdin = L ++ 10 :: rest) (hnl : ∀ c ∈ L, c ≠ 10)
    (hfuel : L.length + 1 ≤ fuel) :
    ∃ text, get_string create_string stdin new_character fuel = some (text, rest) ∧
      text = 126 :: L ∧ next_character text = L ∧
      ((∀ c ∈ L, c ≠ 0) → print_string (next_character text) = L) := by
  refine ⟨126 :: L, ?_, rfl, rfl, fun h => print_string_eq_self L h⟩
  unfold get_string
  rw [hline, get_string_loop_line rest _ L fuel new_character _ hnl hfuel]
  simp [create_string]

theorem get_string_reads_line_witness :
    scanf_space (10 :: 32 :: cells "Attack at Dawn" ++ 10 :: cells "lemon" ++ [10]) =
      cells "Attack at Dawn" ++ 10 :: (cells "lemon" ++ [10]) ∧
    (∀ c ∈ cells "Attack at Dawn", c ≠ 10) ∧
    ∃ text, get_string create_string
        (10 :: 32 :: cells "Attack at Dawn" ++ 10 :: cells "lemon" ++ [10]) 0 15 =
        some (text, cells "lemon" ++ [10]) ∧
      text = 126 :: cells "Attack at Dawn" ∧ next_character text = cells "Attack at Dawn" ∧
      ((∀ c ∈ cells "Attack at Dawn", c ≠ 0) →
        print_string (next_character text) = cells "Attack at Dawn") :=
  ⟨by decide, by decide,
    get_string_reads_line (10 :: 32 :: cells "Attack at Dawn" ++ 10 :: cells "lemon" ++ [10])
      (cells "Attack at Dawn") (cells "lemon" ++ [10]) 0 15 (by decide) (by decide)
      (by decide)⟩

/-- C15 as stated fails for a line that holds a NUL character: on the input `a`, NUL, `b`,
newline, `get_string` links the three cells `a`, NUL, `b`, and `print_string` renders only
`a`, not the three characters of the line. -/
theorem get_string_line_with_nul :
    scanf_space [97, 0, 98, 10] = [97, 0, 98] ++ 10 :: [] ∧
    (∀ c ∈ [97, 0, 98], c ≠ (10 : Int)) ∧
    get_string create_string [97, 0, 98, 10] 0 4 = some ([126, 97, 0, 98], []) ∧
    print_string (next_character [126, 97, 0, 98]) = [97] ∧
    print_string (next_character [126, 97, 0, 98]) ≠ [97, 0, 98] := by
  decide

/-- C16. End of input: on the input `abc` with no newline after it, the loops of `get_string`
and of `get_key` are still running after any number of tests, whatever `new_character` held
at first: `fgets` stores nothing at end of input, `new_character` keeps the `c` read last,
and the test `new_character != '\n'` stays true. -/
theorem end_of_input_never_ends (fuel : Nat) (new_character : Int) :
    get_string create_string (cells "abc") new_character fuel = none ∧
    get_key create_string (cells "abc") new_character fuel = none := by
  have hs : scanf_space (cells "abc") = [97, 98, 99] := by decide
  have h := get_string_loop_no_newline (create_string.drop 1) [97, 98, 99] fuel new_character
    (create_string.take 1) (by decide) (Or.inl (by decide))
  constructor
  · unfold get_string
    rw [hs]
    exact h
  · unfold get_key
    rw [hs, get_key_loop_eq]
    exact h

/-! ## The engine writes message cells only -/

theorem mem_cycle_key_find (m : Mem.Memory) (key kt : Nat) :
    ∀ (ks : List Nat) (p fuel : Nat), Mem.Chain m.next_character p ks kt →
      (∀ a ∈ ks, m.character a ≠ 0) → (∃ a ∈ ks, isalpha (m.character a) = true) →
      ks.length ≤ fuel →
      ∃ q pre ks', ks = pre ++ q :: ks' ∧ Mem.cycle_key m key fuel p = some q ∧
        isalpha (m.character q) = true ∧ Mem.Chain m.next_character (m.next_character q) ks' kt := by
  intro ks
  induction ks with
  | nil => intro p fuel _ _ h; obtain ⟨a, ha, _⟩ := h; simp at ha
  | cons a ks ih =>
    intro p fuel hch hnz hlet hf
    obtain ⟨rfl, hch'⟩ := hch
    obtain ⟨f, rfl⟩ : ∃ f, fuel = f + 1 := ⟨fuel - 1, by simp at hf; omega⟩
    by_cases hal : isalpha (m.character p) = true
    · exact ⟨p, [], ks, rfl, by simp [Mem.cycle_key, hal], hal, hch'⟩
    · have h0 : m.character p ≠ 0 := hnz p (List.mem_cons_self _ _)
      have hlet' : ∃ b ∈ ks, isalpha (m.character b) = true := by
        obtain ⟨b, hb, hbal⟩ := hlet
        rcases List.mem_cons.mp hb with rfl | hb
        · exact absurd hbal hal
        · exact ⟨b, hb, hbal⟩
      obtain ⟨q, pre, ks', hks, hq, hqal, hqch⟩ := ih (m.next_character p) f hch'
        (fun b hb => hnz b (List.mem_cons_of_mem _ hb)) hlet' (by simp at hf; omega)
      refine ⟨q, p :: pre, ks', by rw [hks]; rfl, ?_, hqal, hqch⟩
      simp [Mem.cycle_key, hal, h0, hq]

theorem mem_cycle_key_wrap (m : Mem.Memory) (key kt : Nat) (hkt : m.character kt = 0) :
    ∀ (ks : List Nat) (p fuel : Nat), Mem.Chain m.next_character p ks kt →
      (∀ a ∈ ks, m.character a ≠ 0) → (¬ ∃ a ∈ ks, isalpha (m.character a) = true) →
      ks.length + 1 ≤ fuel →
      Mem.cycle_key m key fuel p =
        Mem.cycle_key m key (fuel - ks.length - 1) (m.next_character key) := by
  intro ks
  induction ks with
  | nil =>
    intro p fuel hch _ _ hf
    have hp : p = kt := hch
    obtain ⟨f, rfl⟩ : ∃ f, fuel = f + 1 := ⟨fuel - 1, by simp at hf; omega⟩
    have h0 : isalpha 0 = false := by decide
    simp [Mem.cycle_key, hp, hkt, h0]
  | cons a ks ih =>
    intro p fuel hch hnz hno hf
    obtain ⟨rfl, hch'⟩ := hch
    obtain ⟨f, rfl⟩ : ∃ f, fuel = f + 1 := ⟨fuel - 1, by simp at hf; omega⟩
    have hal : ¬ isalpha (m.character p) = true :=
      fun h => hno ⟨p, List.mem_cons_self _ _, h⟩
    have h0 : m.character p ≠ 0 := hnz p (List.mem_cons_self _ _)
    have hrec := ih (m.next_character p) f hch'
      (fun b hb => hnz b (List.mem_cons_of_mem _ hb))
      (fun ⟨b, hb, hbal⟩ => hno ⟨b, List.mem_cons_of_mem _ hb, hbal⟩) (by simp at hf; omega)
    have hsub : f + 1 - (p :: ks).length - 1 = f - ks.length - 1 := by simp
    simp only [Mem.cycle_key, hal, h0, hrec, hsub]
    simp

/-- In a memory whose key string has a letter, the key-skipping loop ends at a key cell that
holds a letter, from every cell of the key string. -/
theorem mem_cycle_key_ok (m : Mem.Memory) (key kt : Nat) (ka : List Nat)
    (hK : Mem.IsString m key ka kt) (hlet : ∃ a ∈ ka, isalpha (m.character a) = true)
    (ks : List Nat) (p fuel : Nat) (hsuf : ∃ pre, ka = pre ++ ks)
    (hch : Mem.Chain m.next_character p ks kt) (hf : 2 * ka.length + 2 ≤ fuel) :
    ∃ q ks', Mem.cycle_key m key fuel p = some q ∧ isalpha (m.character q) = true ∧
      Mem.Chain m.next_character (m.next_character q) ks' kt ∧
      ∃ pre, ka = pre ++ q :: ks' := by
  obtain ⟨hKch, hKnz, hkt⟩ := hK
  obtain ⟨pre0, hpre0⟩ := hsuf
  have hlen : ks.length ≤ ka.length := by rw [hpre0]; simp
  have hnzs : ∀ a ∈ ks, m.character a ≠ 0 := fun a ha =>
    hKnz a (by rw [hpre0]; exact List.mem_append_right _ ha)
  by_cases hahead : ∃ a ∈ ks, isalpha (m.character a) = true
  · obtain ⟨q, pre, ks', hks, hq, hqal, hqch⟩ :=
      mem_cycle_key_find m key kt ks p fuel hch hnzs hahead (by omega)
    refine ⟨q, ks', hq, hqal, hqch, pre0 ++ pre, ?_⟩
    rw [hpre0, hks]; simp
  · rw [mem_cycle_key_wrap m key kt hkt ks p fuel hch hnzs hahead (by omega)]
    obtain ⟨q, pre, ks', hks, hq, hqal, hqch⟩ :=
      mem_cycle_key_find m key kt ka (m.next_character key) (fuel - ks.length - 1) hKch hKnz
        hlet (by omega)
    exact ⟨q, ks', hq, hqal, hqch, pre, hks⟩

theorem mem_cycle_message_ok (m : Mem.Memory) (mt : Nat) (hmt : m.character mt = 0) :
    ∀ (cells : List Nat) (p fuel : Nat), Mem.Chain m.next_character p cells mt →
      cells.length + 1 ≤ fuel →
      ∃ q cells', Mem.cycle_message m fuel p = some q ∧
        Mem.Chain m.next_character q cells' mt ∧ ∃ pre, cells = pre ++ cells' := by
  intro cells
  induction cells with
  | nil =>
    intro p fuel hch hf
    have hp : p = mt := hch
    obtain ⟨f, rfl⟩ : ∃ f, fuel = f + 1 := ⟨fuel - 1, by simp at hf; omega⟩
    exact ⟨p, [], by simp [Mem.cycle_message, hp, hmt], hch, [], rfl⟩
  | cons a cells ih =>
    intro p fuel hch hf
    obtain ⟨f, rfl⟩ : ∃ f, fuel = f + 1 := ⟨fuel - 1, by simp at hf; omega⟩
    by_cases hskip : (!isalpha (m.character p) && m.character p != 0) = true
    · obtain ⟨rfl, hch'⟩ := hch
      obtain ⟨q, cells', hq, hqch, pre, hpre⟩ := ih (m.next_character p) f hch'
        (by simp at hf; omega)
      refine ⟨q, cells', ?_, hqch, p :: pre, by rw [hpre]; rfl⟩
      unfold Mem.cycle_message
      rw [if_pos hskip]
      exact hq
    · refine ⟨p, a :: cells, ?_, hch, [], rfl⟩
      unfold Mem.cycle_message
      rw [if_neg hskip]

/-- What an assignment to the message cell `a` keeps: the rest of the message has no
`'\0'`, the terminator is in place, and the key string is as it was. -/
theorem mem_step_props (m m1 : Mem.Memory) (a key kt mt : Nat) (cells ka : List Nat)
    (hnext : m1.next_character = m.next_character)
    (hother : ∀ b, b ≠ a → m1.character b = m.character b) (ha1 : m1.character a ≠ 0)
    (ha : m.character a ≠ 0) (hnz : ∀ b ∈ cells, m.character b ≠ 0)
    (hmt : m.character mt = 0) (hK : Mem.IsString m key ka kt)
    (hlet : ∃ b ∈ ka, isalpha (m.character b) = true) (hsep : a ∉ ka ∧ a ≠ kt) :
    (∀ b ∈ cells, m1.character b ≠ 0) ∧ m1.character mt = 0 ∧ Mem.IsString m1 key ka kt ∧
      ∃ b ∈ ka, isalpha (m1.character b) = true := by
  have hka : ∀ b ∈ ka, m1.character b = m.character b := fun b hb =>
    hother b (fun h => hsep.1 (h ▸ hb))
  refine ⟨?_, ?_, ⟨?_, ?_, ?_⟩, ?_⟩
  · intro b hb
    by_cases hba : b = a
    · rw [hba]; exact ha1
    · rw [hother b hba]; exact hnz b hb
  · rw [hother mt (fun h => ha (h ▸ hmt))]; exact hmt
  · rw [hnext]; exact hK.1
  · intro b hb
    rw [hka b hb]; exact hK.2.1 b hb
  · rw [hother kt (fun h => hsep.2 h.symm)]; exact hK.2.2
  · obtain ⟨b, hb, hbal⟩ := hlet
    exact ⟨b, hb, by rw [hka b hb]; exact hbal⟩

theorem mem_store_props (m : Mem.Memory) (a : Nat) (v : Int) (hv : v ≠ 0) :
    (Mem.store m a v).next_character = m.next_character ∧
      (∀ b, b ≠ a → (Mem.store m a v).character b = m.character b) ∧
      (Mem.store m a v).character a ≠ 0 := by
  refine ⟨rfl, ?_, ?_⟩
  · intro b hb
    simp [Mem.store, hb]
  · simpa [Mem.store] using hv

theorem tmod_26_add_ne_zero (x base : Int) (hb : 26 ≤ base) : x.tmod 26 + base ≠ 0 := by
  have := tmod_26_bounds x
  omega

/-- The continuation of an outer-loop body: after the cell `a` was handled, leaving memory
`m1`, the message-skipping loop and the remaining iterations `rest` return and write message
cells only. -/
theorem mem_continue (rest : Mem.Memory → Nat → Nat → Option Mem.Memory)
    (m m1 : Mem.Memory) (a mt kc fuel : Nat) (cells : List Nat)
    (hrest : ∀ (cells' : List Nat) (cur : Nat), (∃ pre, cells = pre ++ cells') →
      Mem.Chain m1.next_character cur cells' mt →
      ∃ m', rest m1 cur kc = some m' ∧ m'.next_character = m1.next_character ∧
        ∀ b, b ∉ cells' → m'.character b = m1.character b)
    (hnext : m1.next_character = m.next_character)
    (hother : ∀ b, b ≠ a → m1.character b = m.character b)
    (hmt1 : m1.character mt = 0)
    (hch : Mem.Chain m.next_character (m.next_character a) cells mt)
    (hf : cells.length + 1 ≤ fuel) :
    ∃ m', (match Mem.cycle_message m1 fuel (m.next_character a) with
        | none => none
        | some cur => rest m1 cur kc) = some m' ∧
      m'.next_character = m.next_character ∧
      ∀ b, b ∉ a :: cells → m'.character b = m.character b := by
  have hch1 : Mem.Chain m1.next_character (m.next_character a) cells mt := by
    rw [hnext]; exact hch
  obtain ⟨cur, cells', hcur, hcurch, hpre⟩ :=
    mem_cycle_message_ok m1 mt hmt1 cells (m.next_character a) fuel hch1 hf
  obtain ⟨m', hm', hn', hfr⟩ := hrest cells' cur hpre hcurch
  refine ⟨m', by rw [hcur]; exact hm', by rw [hn', hnext], ?_⟩
  intro b hb
  obtain ⟨pre, hpre⟩ := hpre
  have hb1 : b ≠ a := fun h => hb (h ▸ List.mem_cons_self _ _)
  have hb2 : b ∉ cells' := fun h =>
    hb (List.mem_cons_of_mem _ (by rw [hpre]; exact List.mem_append_right _ h))
  rw [hfr b hb2, hother b hb1]

theorem mem_encode_loop_frame (key kt mt fuel : Nat) (ka : List Nat)
    (hfk : 2 * ka.length + 2 ≤ fuel) :
    ∀ (n : Nat) (m : Mem.Memory) (cells : List Nat) (cur kc : Nat) (ks : List Nat),
      Mem.Chain m.next_character cur cells mt → (∀ a ∈ cells, m.character a ≠ 0) →
      m.character mt = 0 → Mem.IsString m key ka kt →
      (∃ b ∈ ka, isalpha (m.character b) = true) → (∀ a ∈ cells, a ∉ ka ∧ a ≠ kt) →
      Mem.Chain m.next_character kc ks kt → (∃ pre, ka = pre ++ ks) →
      cells.length + 1 ≤ n → cells.length + 1 ≤ fuel →
      ∃ m', Mem.encode_vigenere_loop key fuel n m cur kc = some m' ∧
        m'.next_character = m.next_character ∧
        ∀ b, b ∉ cells → m'.character b = m.character b := by
  intro n
  induction n with
  | zero => intro m cells cur kc ks _ _ _ _ _ _ _ _ hn _; omega
  | succ n ih =>
    intro m cells cur kc ks hch hnz hmt hK hlet hsep hkch hsuf hn hf
    cases cells with
    | nil =>
      have hcur : cur = mt := hch
      exact ⟨m, by simp [Mem.encode_vigenere_loop, hcur, hmt], rfl, fun _ _ => rfl⟩
    | cons a cells =>
      have hcur : cur = a := hch.1
      have hch' : Mem.Chain m.next_character (m.next_character a) cells mt := hch.2
      have ha : m.character a ≠ 0 := hnz a (List.mem_cons_self _ _)
      have hnz' : ∀ b ∈ cells, m.character b ≠ 0 := fun b hb =>
        hnz b (List.mem_cons_of_mem _ hb)
      have hsepa := hsep a (List.mem_cons_self _ _)
      obtain ⟨q, ks', hq, _, hqch, pre, hpre⟩ :=
        mem_cycle_key_ok m key kt ka hK hlet ks kc fuel hsuf hkch hfk
      have hqsuf : ∃ pre', ka = pre' ++ ks' := ⟨pre ++ [q], by rw [hpre]; simp⟩
      have hstep : ∀ (m1 : Mem.Memory) (kc' : Nat) (ks1 : List Nat),
          m1.next_character = m.next_character →
          (∀ b, b ≠ a → m1.character b = m.character b) → m1.character a ≠ 0 →
          Mem.Chain m.next_character kc' ks1 kt → (∃ pre, ka = pre ++ ks1) →
          ∃ m', (match Mem.cycle_message m1 fuel (m.next_character a) with
              | none => none
              | some cur => Mem.encode_vigenere_loop key fuel n m1 cur kc') = some m' ∧
            m'.next_character = m.next_character ∧
            ∀ b, b ∉ a :: cells → m'.character b = m.character b := by
        intro m1 kc' ks1 hnext hother ha1 hkc' hsuf'
        obtain ⟨hnz1, hmt1, hK1, hlet1⟩ := mem_step_props m m1 a key kt mt cells ka hnext
          hother ha1 ha hnz' hmt hK hlet hsepa
        refine mem_continue (fun m1 cur kc => Mem.encode_vigenere_loop key fuel n m1 cur kc)
          m m1 a mt kc' fuel cells ?_ hnext hother hmt1 hch' (by simp at hf; omega)
        intro cells' cur' hpre hcurch
        obtain ⟨pre, hpre⟩ := hpre
        have hsub : ∀ b ∈ cells', b ∈ cells := fun b hb => by
          rw [hpre]; exact List.mem_append_right _ hb
        have hlen : cells'.length ≤ cells.length := by rw [hpre]; simp
        exact ih m1 cells' cur' kc' ks1 hcurch (fun b hb => hnz1 b (hsub b hb)) hmt1 hK1 hlet1
          (fun b hb => hsep b (List.mem_cons_of_mem _ (hsub b hb)))
          (by rw [hnext]; exact hkc') hsuf' (by simp at hn; omega) (by simp at hf; omega)
      rw [hcur]
      unfold Mem.encode_vigenere_loop
      rw [if_neg ha]
      simp only [hq]
      by_cases hU : test_character (m.character a) = UPPER
      · rw [if_pos hU]
        obtain ⟨h1, h2, h3⟩ := mem_store_props m a _
          (tmod_26_add_ne_zero (m.character a - UPPER_INT + (m.character q - LOWER_INT) + 26)
            UPPER_INT (by decide))
        exact hstep _ _ ks' h1 h2 h3 hqch hqsuf
      · rw [if_neg hU]
        by_cases hL : test_character (m.character a) = LOWER
        · rw [if_pos hL]
          obtain ⟨h1, h2, h3⟩ := mem_store_props m a _
            (tmod_26_add_ne_zero (m.character a - LOWER_INT + (m.character q - LOWER_INT) + 26)
              LOWER_INT (by decide))
          exact hstep _ _ ks' h1 h2 h3 hqch hqsuf
        · rw [if_neg hL]
          have hqself : Mem.Chain m.next_character q (q :: ks') kt := ⟨rfl, hqch⟩
          exact hstep m q (q :: ks') rfl (fun _ _ => rfl) ha hqself ⟨pre, hpre⟩

theorem mem_decode_loop_frame (key kt mt fuel : Nat) (ka : List Nat)
    (hfk : 2 * ka.length + 2 ≤ fuel) :
    ∀ (n : Nat) (m : Mem.Memory) (cells : List Nat) (cur kc : Nat) (ks : List Nat),
      Mem.Chain m.next_character cur cells mt → (∀ a ∈ cells, m.character a ≠ 0) →
      m.character mt = 0 → Mem.IsString m key ka kt →
      (∃ b ∈ ka, isalpha (m.character b) = true) → (∀ a ∈ cells, a ∉ ka ∧ a ≠ kt) →
      Mem.Chain m.next_character kc ks kt → (∃ pre, ka = pre ++ ks) →
      cells.length + 1 ≤ n → cells.length + 1 ≤ fuel →
      ∃ m', Mem.decode_vigenere_loop key fuel n m cur kc = some m' ∧
        m'.next_character = m.next_character ∧
        ∀ b, b ∉ cells → m'.character b = m.character b := by
  intro n
  induction n with
  | zero => intro m cells cur kc ks _ _ _ _ _ _ _ _ hn _; omega
  | succ n ih =>
    intro m cells cur kc ks hch hnz hmt hK hlet hsep hkch hsuf hn hf
    cases cells with
    | nil =>
      have hcur : cur = mt := hch
      exact ⟨m, by simp [Mem.decode_vigenere_loop, hcur, hmt], rfl, fun _ _ => rfl⟩
    | cons a cells =>
      have hcur : cur = a := hch.1
      have hch' : Mem.Chain m.next_character (m.next_character a) cells mt := hch.2
      have ha : m.character a ≠ 0 := hnz a (List.mem_cons_self _ _)
      have hnz' : ∀ b ∈ cells, m.character b ≠ 0 := fun b hb =>
        hnz b (List.mem_cons_of_mem _ hb)
      have hsepa := hsep a (List.mem_cons_self _ _)
      obtain ⟨q, ks', hq, _, hqch, pre, hpre⟩ :=
        mem_cycle_key_ok m key kt ka hK hlet ks kc fuel hsuf hkch hfk
      have hqsuf : ∃ pre', ka = pre' ++ ks' := ⟨pre ++ [q], by rw [hpre]; simp⟩
      have hstep : ∀ (m1 : Mem.Memory) (kc' : Nat) (ks1 : List Nat),
          m1.next_character = m.next_character →
          (∀ b, b ≠ a → m1.character b = m.character b) → m1.character a ≠ 0 →
          Mem.Chain m.next_character kc' ks1 kt → (∃ pre, ka = pre ++ ks1) →
          ∃ m', (match Mem.cycle_message m1 fuel (m.next_character a) with
              | none => none
              | some cur => Mem.decode_vigenere_loop key fuel n m1 cur kc') = some m' ∧
            m'.next_character = m.next_character ∧
            ∀ b, b ∉ a :: cells → m'.character b = m.character b := by
        intro m1 kc' ks1 hnext hother ha1 hkc' hsuf'
        obtain ⟨hnz1, hmt1, hK1, hlet1⟩ := mem_step_props m m1 a key kt mt cells ka hnext
          hother ha1 ha hnz' hmt hK hlet hsepa
        refine mem_continue (fun m1 cur kc => Mem.decode_vigenere_loop key fuel n m1 cur kc)
          m m1 a mt kc' fuel cells ?_ hnext hother hmt1 hch' (by simp at hf; omega)
        intro cells' cur' hpre hcurch
        obtain ⟨pre, hpre⟩ := hpre
        have hsub : ∀ b ∈ cells', b ∈ cells := fun b hb => by
          rw [hpre]; exact List.mem_append_right _ hb
        have hlen : cells'.length ≤ cells.length := by rw [hpre]; simp
        exact ih m1 cells' cur' kc' ks1 hcurch (fun b hb => hnz1 b (hsub b hb)) hmt1 hK1 hlet1
          (fun b hb => hsep b (List.mem_cons_of_mem _ (hsub b hb)))
          (by rw [hnext]; exact hkc') hsuf' (by simp at hn; omega) (by simp at hf; omega)
      rw [hcur]
      unfold Mem.decode_vigenere_loop
      rw [if_neg ha]
      simp only [hq]
      by_cases hU : test_character (m.character a) = UPPER
      · rw [if_pos hU]
        obtain ⟨h1, h2, h3⟩ := mem_store_props m a _
          (tmod_26_add_ne_zero (m.character a - UPPER_INT - (m.character q - LOWER_INT) + 26)
            UPPER_INT (by decide))
        exact hstep _ _ ks' h1 h2 h3 hqch hqsuf
      · rw [if_neg hU]
        by_cases hL : test_character (m.character a) = LOWER
        · rw [if_pos hL]
          obtain ⟨h1, h2, h3⟩ := mem_store_props m a _
            (tmod_26_add_ne_zero (m.character a - LOWER_INT - (m.character q - LOWER_INT) + 26)
              LOWER_INT (by decide))
          exact hstep _ _ ks' h1 h2 h3 hqch hqsuf
        · rw [if_neg hL]
          have hqself : Mem.Chain m.next_character q (q :: ks') kt := ⟨rfl, hqch⟩
          exact hstep m q (q :: ks') rfl (fun _ _ => rfl) ha hqself ⟨pre, hpre⟩

theorem mem_key_untouched (m m' : Mem.Memory) (key kt : Nat) (ma ka : List Nat)
    (hKs : Mem.IsString m key ka kt) (hsep : ∀ a ∈ ma, a ∉ ka ∧ a ≠ kt)
    (hnext : m'.next_character = m.next_character)
    (hframe : ∀ b, b ∉ ma → m'.character b = m.character b) :
    Mem.KeyUntouched m m' key ma ka kt := by
  have hka : ∀ b ∈ ka, m'.character b = m.character b := fun b hb =>
    hframe b (fun h => (hsep b h).1 hb)
  have hkt : m'.character kt = m.character kt := hframe kt (fun h => (hsep kt h).2 rfl)
  refine ⟨hnext, hframe, ⟨?_, ?_, ?_⟩, List.map_congr_left hka⟩
  · rw [hnext]; exact hKs.1
  · intro b hb
    rw [hka b hb]; exact hKs.2.1 b hb
  · rw [hkt]; exact hKs.2.2

/-- C17. The cipher engine only reads the key: in every memory in which the message string
renders the cells `ma` and the key string the cells `ka`, the key has a letter, and no
message cell is a cell of the key string, `encode_vigenere_cipher` and
`decode_vigenere_cipher` return (given enough fuel for their loops) a memory with the same
links whose characters differ from the old ones at message cells only; the key string is
what it was, character for character. -/
theorem engine_only_reads_key (m : Mem.Memory) (plaintext key mt kt fuel : Nat)
    (ma ka : List Nat) (hM : Mem.IsString m plaintext ma mt) (hKs : Mem.IsString m key ka kt)
    (hlet : ∃ a ∈ ka, isalpha (m.character a) = true)
    (hsep : ∀ a ∈ ma, a ∉ ka ∧ a ≠ kt)
    (hfm : ma.length + 1 ≤ fuel) (hfk : 2 * ka.length + 2 ≤ fuel) :
    (∃ m', Mem.encode_vigenere_cipher m plaintext key fuel = some m' ∧
      Mem.KeyUntouched m m' key ma ka kt) ∧
    (∃ m', Mem.decode_vigenere_cipher m plaintext key fuel = some m' ∧
      Mem.KeyUntouched m m' key ma ka kt) := by
  constructor
  · obtain ⟨m', hm', hnext, hframe⟩ := mem_encode_loop_frame key kt mt fuel ka hfk fuel m ma
      (m.next_character plaintext) (m.next_character key) ka hM.1 hM.2.1 hM.2.2 hKs hlet hsep
      hKs.1 ⟨[], rfl⟩ hfm hfm
    exact ⟨m', hm', mem_key_untouched m m' key kt ma ka hKs hsep hnext hframe⟩
  · obtain ⟨m', hm', hnext, hframe⟩ := mem_decode_loop_frame key kt mt fuel ka hfk fuel m ma
      (m.next_character plaintext) (m.next_character key) ka hM.1 hM.2.1 hM.2.2 hKs hlet hsep
      hKs.1 ⟨[], rfl⟩ hfm hfm
    exact ⟨m', hm', mem_key_untouched m m' key kt ma ka hKs hsep hnext hframe⟩

theorem engine_only_reads_key_witness :
    Mem.IsString Mem.demo 1 [2, 3, 4] 5 ∧ Mem.IsString Mem.demo 6 [7, 8] 9 ∧
    (∃ a ∈ [7, 8], isalpha (Mem.demo.character a) = true) ∧
    (∀ a ∈ [2, 3, 4], a ∉ [7, 8] ∧ a ≠ 9) ∧
    (Mem.encode_vigenere_cipher Mem.demo 1 6 6).map
      (fun m' => ([2, 3, 4].map m'.character, [7, 8].map m'.character)) =
      some (cells "Hj!", cells "ab") ∧
    encode_vigenere_cipher (cells "Hi!") (cells "ab") 6 = some (cells "Hj!") ∧
    (∃ m', Mem.encode_vigenere_cipher Mem.demo 1 6 6 = some m' ∧
      Mem.KeyUntouched Mem.demo m' 6 [2, 3, 4] [7, 8] 9) ∧
    (∃ m', Mem.decode_vigenere_cipher Mem.demo 1 6 6 = some m' ∧
      Mem.KeyUntouched Mem.demo m' 6 [2, 3, 4] [7, 8] 9) :=
  ⟨⟨⟨rfl, rfl, rfl, rfl⟩, by decide, rfl⟩, ⟨⟨rfl, rfl, rfl⟩, by decide, rfl⟩, by decide,
    by decide, by decide, by decide,
    engine_only_reads_key Mem.demo 1 6 5 9 6 [2, 3, 4] [7, 8]
      ⟨⟨rfl, rfl, rfl, rfl⟩, by decide, rfl⟩ ⟨⟨rfl, rfl, rfl⟩, by decide, rfl⟩ (by decide)
      (by decide) (by decide) (by decide)⟩

/-! ## The two embeddings of the Vigenere functions agree -/

theorem mem_cycle_key_sim (m : Mem.Memory) (key kt : Nat) (ka : List Nat)
    (hK : Mem.IsString m key ka kt) :
    ∀ (fuel : Nat) (ks : List Nat) (kc : Nat), Mem.Chain m.next_character kc ks kt →
      (∃ pre, ka = pre ++ ks) → ∀ q, Mem.cycle_key m key fuel kc = some q →
      ∃ ks', Mem.Chain m.next_character (m.next_character q) ks' kt ∧
        (∃ pre, ka = pre ++ q :: ks') ∧
        cycle_key (ka.map m.character) fuel (ks.map m.character) =
          some ((q :: ks').map m.character) := by
  intro fuel
  induction fuel with
  | zero => intro ks kc _ _ q hq; simp [Mem.cycle_key] at hq
  | succ f ih =>
    intro ks kc hch hsuf q hq
    have h0 : isalpha 0 = false := by decide
    cases ks with
    | nil =>
      have hkc : kc = kt := hch
      rw [hkc] at hq
      simp only [Mem.cycle_key, hK.2.2, h0] at hq
      simp only [Bool.false_eq_true, if_false, if_true] at hq
      obtain ⟨ks', h1, h2, h3⟩ := ih ka (m.next_character key) hK.1 ⟨[], rfl⟩ q hq
      refine ⟨ks', h1, h2, ?_⟩
      simp [cycle_key, character, h0, h3]
    | cons a ks1 =>
      have hkc : kc = a := hch.1
      obtain ⟨pre, hpre⟩ := hsuf
      have ha0 : m.character a ≠ 0 :=
        hK.2.1 a (by rw [hpre]; exact List.mem_append_right _ (List.mem_cons_self _ _))
      rw [hkc] at hq
      by_cases hal : isalpha (m.character a) = true
      · simp only [Mem.cycle_key, hal, if_true, Option.some.injEq] at hq
        subst hq
        exact ⟨ks1, hch.2, ⟨pre, hpre⟩, by simp [cycle_key, character, hal]⟩
      · simp only [Mem.cycle_key, hal, ha0, Bool.false_eq_true, if_false] at hq
        obtain ⟨ks', h1, h2, h3⟩ := ih ks1 (m.next_character a) hch.2
          ⟨pre ++ [a], by rw [hpre]; simp⟩ q hq
        refine ⟨ks', h1, h2, ?_⟩
        simp [cycle_key, character, next_character, hal, ha0, h3]

theorem encode_vigenere_loop_skip (K : List Int) (fuel : Nat) (s : List Int) :
    ∀ (pre rest : List Int), (∀ x ∈ pre, isalpha x = false ∧ x ≠ 0) →
      encode_vigenere_loop K fuel true (pre ++ rest) s =
        (encode_vigenere_loop K fuel true rest s).map (pre ++ ·) := by
  intro pre
  induction pre with
  | nil => intro rest _; simp
  | cons c pre ih =>
    intro rest h
    have hc := h c (List.mem_cons_self _ _)
    have hrec := ih rest (fun x hx => h x (List.mem_cons_of_mem _ hx))
    simp [encode_vigenere_loop, hc.1, hc.2, hrec, Option.map_map, Function.comp_def]

theorem encode_vigenere_loop_inner (K : List Int) (fuel : Nat) (s rest : List Int)
    (h : rest = [] ∨ ∃ a tl, rest = a :: tl ∧ isalpha a = true) :
    encode_vigenere_loop K fuel true rest s = encode_vigenere_loop K fuel false rest s := by
  rcases h with rfl | ⟨a, tl, rfl, hal⟩
  · rfl
  · simp [encode_vigenere_loop, hal]

theorem decode_vigenere_loop_skip (K : List Int) (fuel : Nat) (s : List Int) :
    ∀ (pre rest : List Int), (∀ x ∈ pre, isalpha x = false ∧ x ≠ 0) →
      decode_vigenere_loop K fuel true (pre ++ rest) s =
        (decode_vigenere_loop K fuel true rest s).map (pre ++ ·) := by
  intro pre
  induction pre with
  | nil => intro rest _; simp
  | cons c pre ih =>
    intro rest h
    have hc := h c (List.mem_cons_self _ _)
    have hrec := ih rest (fun x hx => h x (List.mem_cons_of_mem _ hx))
    simp [decode_vigenere_loop, hc.1, hc.2, hrec, Option.map_map, Function.comp_def]

theorem decode_vigenere_loop_inner (K : List Int) (fuel : Nat) (s rest : List Int)
    (h : rest = [] ∨ ∃ a tl, rest = a :: tl ∧ isalpha a = true) :
    decode_vigenere_loop K fuel true rest s = decode_vigenere_loop K fuel false rest s := by
  rcases h with rfl | ⟨a, tl, rfl, hal⟩
  · rfl
  · simp [decode_vigenere_loop, hal]

theorem mem_cycle_message_stop (m : Mem.Memory) (mt : Nat) (hmt : m.character mt = 0) :
    ∀ (cells : List Nat) (p fuel q : Nat), Mem.Chain m.next_character p cells mt →
      (∀ a ∈ cells, m.character a ≠ 0) → Mem.cycle_message m fuel p = some q →
      ∃ pre cells', cells = pre ++ cells' ∧ Mem.Chain m.next_character q cells' mt ∧
        (∀ b ∈ pre, isalpha (m.character b) = false) ∧
        (cells' = [] ∨ ∃ a tl, cells' = a :: tl ∧ isalpha (m.character a) = true) := by
  intro cells
  induction cells with
  | nil =>
    intro p fuel q hch _ hq
    have hp : p = mt := hch
    cases fuel with
    | zero => simp [Mem.cycle_message] at hq
    | succ f =>
      unfold Mem.cycle_message at hq
      split_ifs at hq with hskip
      · rw [hp] at hskip
        simp [hmt] at hskip
      · have : p = q := by simpa using hq
        exact ⟨[], [], rfl, this ▸ hch, by simp, Or.inl rfl⟩
  | cons a cells ih =>
    intro p fuel q hch hnz hq
    have hp : p = a := hch.1
    have ha0 : m.character a ≠ 0 := hnz a (List.mem_cons_self _ _)
    cases fuel with
    | zero => simp [Mem.cycle_message] at hq
    | succ f =>
      unfold Mem.cycle_message at hq
      split_ifs at hq with hskip
      · rw [hp] at hskip hq
        obtain ⟨pre, cells', h1, h2, h3, h4⟩ := ih (m.next_character a) f q hch.2
          (fun b hb => hnz b (List.mem_cons_of_mem _ hb)) hq
        refine ⟨a :: pre, cells', by rw [h1]; rfl, h2, ?_, h4⟩
        intro b hb
        rcases List.mem_cons.mp hb with hba | hb
        · rw [hba]
          simp at hskip
          exact hskip.1
        · exact h3 b hb
      · have hpq : p = q := by simpa using hq
        rw [hp] at hskip
        refine ⟨[], a :: cells, rfl, hpq ▸ hch, by simp, Or.inr ⟨a, cells, rfl, ?_⟩⟩
        simpa [ha0] using hskip

theorem map_character_congr (m m1 : Mem.Memory) (l : List Nat)
    (h : ∀ b ∈ l, m1.character b = m.character b) : l.map m1.character = l.map m.character :=
  List.map_congr_left h

theorem mem_encode_loop_sim (key kt mt fuel : Nat) (ka : List Nat)
    (hfk : 2 * ka.length + 2 ≤ fuel) :
    ∀ (n : Nat) (m : Mem.Memory) (cells : List Nat) (cur kc : Nat) (ks : List Nat)
      (m' : Mem.Memory),
      Mem.Chain m.next_character cur cells mt → (∀ a ∈ cells, m.character a ≠ 0) →
      m.character mt = 0 → Mem.IsString m key ka kt →
      (∃ b ∈ ka, isalpha (m.character b) = true) → (∀ a ∈ cells, a ∉ ka ∧ a ≠ kt) →
      Mem.Chain m.next_character kc ks kt → (∃ pre, ka = pre ++ ks) → cells.Nodup →
      cells.length + 1 ≤ n → cells.length + 1 ≤ fuel →
      Mem.encode_vigenere_loop key fuel n m cur kc = some m' →
      encode_vigenere_loop (ka.map m.character) fuel false (cells.map m.character)
        (ks.map m.character) = some (cells.map m'.character) := by
  intro n
  induction n with
  | zero => intro m cells cur kc ks m' _ _ _ _ _ _ _ _ _ hn _ _; omega
  | succ n ih =>
    intro m cells cur kc ks m' hch hnz hmt hK hlet hsep hkch hsuf hnd hn hf hloop
    cases cells with
    | nil => simp [encode_vigenere_loop]
    | cons a cells =>
      have hcur : cur = a := hch.1
      have hch' : Mem.Chain m.next_character (m.next_character a) cells mt := hch.2
      have ha : m.character a ≠ 0 := hnz a (List.mem_cons_self _ _)
      have hnz' : ∀ b ∈ cells, m.character b ≠ 0 := fun b hb =>
        hnz b (List.mem_cons_of_mem _ hb)
      have hsepa := hsep a (List.mem_cons_self _ _)
      have hanot : a ∉ cells := (List.nodup_cons.mp hnd).1
      have hnd' : cells.Nodup := (List.nodup_cons.mp hnd).2
      rw [hcur] at hloop
      unfold Mem.encode_vigenere_loop at hloop
      rw [if_neg ha] at hloop
      cases hck : Mem.cycle_key m key fuel kc with
      | none => rw [hck] at hloop; simp at hloop
      | some q =>
        rw [hck] at hloop
        simp only at hloop
        obtain ⟨ks', hqch, ⟨pre, hpre⟩, hlist⟩ :=
          mem_cycle_key_sim m key kt ka hK fuel ks kc hkch hsuf q hck
        have hqsuf : ∃ pre', ka = pre' ++ ks' := ⟨pre ++ [q], by rw [hpre]; simp⟩
        have hstep : ∀ (m1 : Mem.Memory) (kc' : Nat) (ks1 : List Nat) (v : Int),
            m1.next_character = m.next_character →
            (∀ b, b ≠ a → m1.character b = m.character b) → m1.character a = v → v ≠ 0 →
            Mem.Chain m.next_character kc' ks1 kt → (∃ pre, ka = pre ++ ks1) →
            (match Mem.cycle_message m1 fuel (m.next_character a) with
              | none => none
              | some cur => Mem.encode_vigenere_loop key fuel n m1 cur kc') = some m' →
            (encode_vigenere_loop (ka.map m.character) fuel true (cells.map m.character)
              (ks1.map m.character)).map (v :: ·) = some ((a :: cells).map m'.character) := by
          intro m1 kc' ks1 v hnext hother hav hv hkc' hsuf' hcont
          obtain ⟨hnz1, hmt1, hK1, hlet1⟩ := mem_step_props m m1 a key kt mt cells ka hnext
            hother (by rw [hav]; exact hv) ha hnz' hmt hK hlet hsepa
          have hch1 : Mem.Chain m1.next_character (m.next_character a) cells mt := by
            rw [hnext]; exact hch'
          cases hcm : Mem.cycle_message m1 fuel (m.next_character a) with
          | none => rw [hcm] at hcont; simp at hcont
          | some cur' =>
            rw [hcm] at hcont
            simp only at hcont
            obtain ⟨pre1, cells', hsplit, hcurch, hpre1, hhead⟩ :=
              mem_cycle_message_stop m1 mt hmt1 cells (m.next_character a) fuel cur' hch1 hnz1
                hcm
            have hsub : ∀ b ∈ cells', b ∈ cells := fun b hb => by
              rw [hsplit]; exact List.mem_append_right _ hb
            have hsubp : ∀ b ∈ pre1, b ∈ cells := fun b hb => by
              rw [hsplit]; exact List.mem_append_left _ hb
            have hlen : cells'.length ≤ cells.length := by rw [hsplit]; simp
            have hnd1 : (pre1 ++ cells').Nodup := by rw [← hsplit]; exact hnd'
            have hsep1 : ∀ b ∈ cells', b ∉ ka ∧ b ≠ kt := fun b hb =>
              hsep b (List.mem_cons_of_mem _ (hsub b hb))
            have hkc1 : Mem.Chain m1.next_character kc' ks1 kt := by rw [hnext]; exact hkc'
            obtain ⟨m'', hm'', _, hframe⟩ := mem_encode_loop_frame key kt mt fuel ka hfk n m1
              cells' cur' kc' ks1 hcurch (fun b hb => hnz1 b (hsub b hb)) hmt1 hK1 hlet1 hsep1
              hkc1 hsuf' (by simp at hn; omega) (by simp at hf; omega)
            have hmm : m'' = m' := by
              rw [hm''] at hcont
              exact Option.some.inj hcont
            rw [hmm] at hframe
            have hrec := ih m1 cells' cur' kc' ks1 m' hcurch (fun b hb => hnz1 b (hsub b hb))
              hmt1 hK1 hlet1 hsep1 hkc1 hsuf' (List.Nodup.of_append_right hnd1)
              (by simp at hn; omega) (by simp at hf; omega) hcont
            have hkam : ka.map m1.character = ka.map m.character :=
              map_character_congr m m1 ka (fun b hb => hother b (fun h => hsepa.1 (h ▸ hb)))
            have hks1 : ks1.map m1.character = ks1.map m.character := by
              obtain ⟨p1, hp1⟩ := hsuf'
              exact map_character_congr m m1 ks1 (fun b hb =>
                hother b (fun h => hsepa.1 (h ▸ (by rw [hp1]; exact List.mem_append_right _ hb))))
            have hcm1 : cells.map m.character = pre1.map m1.character ++ cells'.map m1.character := by
              rw [← List.map_append, ← hsplit]
              exact (map_character_congr m m1 cells
                (fun b hb => hother b (fun h => hanot (h ▸ hb)))).symm
            have hpre_skip : ∀ x ∈ pre1.map m1.character, isalpha x = false ∧ x ≠ 0 := by
              intro x hx
              obtain ⟨b, hb, rfl⟩ := List.mem_map.mp hx
              exact ⟨hpre1 b hb, hnz1 b (hsubp b hb)⟩
            have hhead' : cells'.map m1.character = [] ∨
                ∃ c tl, cells'.map m1.character = c :: tl ∧ isalpha c = true := by
              rcases hhead with h | ⟨c, tl, h, hal⟩
              · left; rw [h]; rfl
              · right; exact ⟨m1.character c, tl.map m1.character, by rw [h]; rfl, hal⟩
            have hpre_m' : pre1.map m'.character = pre1.map m1.character :=
              map_character_congr m1 m' pre1 (fun b hb => hframe b (fun h =>
                (List.disjoint_of_nodup_append hnd1) hb h))
            have ha_m' : m'.character a = v := by
              rw [hframe a (fun h => hanot (hsub a h)), hav]
            rw [hkam, hks1] at hrec
            rw [hcm1, encode_vigenere_loop_skip _ _ _ _ _ hpre_skip,
              encode_vigenere_loop_inner _ _ _ _ hhead', hrec]
            simp only [Option.map_some', List.map_cons, ha_m']
            rw [hsplit, List.map_append, hpre_m']
        have hc : character ((q :: ks').map m.character) = m.character q := rfl
        have hnx : next_character ((q :: ks').map m.character) = ks'.map m.character := rfl
        have hqself : Mem.Chain m.next_character q (q :: ks') kt := ⟨rfl, hqch⟩
        rw [List.map_cons]
        unfold encode_vigenere_loop
        simp only [Bool.false_and, Bool.false_eq_true, if_false, ha, hlist, hc, hnx]
        by_cases hU : test_character (m.character a) = UPPER
        · rw [if_pos hU] at hloop ⊢
          obtain ⟨h1, h2, h3⟩ := mem_store_props m a _
            (tmod_26_add_ne_zero (m.character a - UPPER_INT + (m.character q - LOWER_INT) + 26)
              UPPER_INT (by decide))
          exact hstep _ _ ks' _ h1 h2 (by simp [Mem.store]) (tmod_26_add_ne_zero _ UPPER_INT
            (by decide)) hqch hqsuf hloop
        · rw [if_neg hU] at hloop ⊢
          by_cases hL : test_character (m.character a) = LOWER
          · rw [if_pos hL] at hloop ⊢
            obtain ⟨h1, h2, h3⟩ := mem_store_props m a _
              (tmod_26_add_ne_zero
                (m.character a - LOWER_INT + (m.character q - LOWER_INT) + 26)
                LOWER_INT (by decide))
            exact hstep _ _ ks' _ h1 h2 (by simp [Mem.store]) (tmod_26_add_ne_zero _ LOWER_INT
              (by decide)) hqch hqsuf hloop
          · rw [if_neg hL] at hloop ⊢
            exact hstep m q (q :: ks') _ rfl (fun _ _ => rfl) rfl ha hqself ⟨pre, hpre⟩ hloop

theorem mem_decode_loop_sim (key kt mt fuel : Nat) (ka : List Nat)
    (hfk : 2 * ka.length + 2 ≤ fuel) :
    ∀ (n : Nat) (m : Mem.Memory) (cells : List Nat) (cur kc : Nat) (ks : List Nat)
      (m' : Mem.Memory),
      Mem.Chain m.next_character cur cells mt → (∀ a ∈ cells, m.character a ≠ 0) →
      m.character mt = 0 → Mem.IsString m key ka kt →
      (∃ b ∈ ka, isalpha (m.character b) = true) → (∀ a ∈ cells, a ∉ ka ∧ a ≠ kt) →
      Mem.Chain m.next_character kc ks kt → (∃ pre, ka = pre ++ ks) → cells.Nodup →
      cells.length + 1 ≤ n → cells.length + 1 ≤ fuel →
      Mem.decode_vigenere_loop key fuel n m cur kc = some m' →
      decode_vigenere_loop (ka.map m.character) fuel false (cells.map m.character)
        (ks.map m.character) = some (cells.map m'.character) := by
  intro n
  induction n with
  | zero => intro m cells cur kc ks m' _ _ _ _ _ _ _ _ _ hn _ _; omega
  | succ n ih =>
    intro m cells cur kc ks m' hch hnz hmt hK hlet hsep hkch hsuf hnd hn hf hloop
    cases cells with
    | nil => simp [decode_vigenere_loop]
    | cons a cells =>
      have hcur : cur = a := hch.1
      have hch' : Mem.Chain m.next_character (m.next_character a) cells mt := hch.2
      have ha : m.character a ≠ 0 := hnz a (List.mem_cons_self _ _)
      have hnz' : ∀ b ∈ cells, m.character b ≠ 0 := fun b hb =>
        hnz b (List.mem_cons_of_mem _ hb)
      have hsepa := hsep a (List.mem_cons_self _ _)
      have hanot : a ∉ cells := (List.nodup_cons.mp hnd).1
      have hnd' : cells.Nodup := (List.nodup_cons.mp hnd).2
      rw [hcur] at hloop
      unfold Mem.decode_vigenere_loop at hloop
      rw [if_neg ha] at hloop
      cases hck : Mem.cycle_key m key fuel kc with
      | none => rw [hck] at hloop; simp at hloop
      | some q =>
        rw [hck] at hloop
        simp only at hloop
        obtain ⟨ks', hqch, ⟨pre, hpre⟩, hlist⟩ :=
          mem_cycle_key_sim m key kt ka hK fuel ks kc hkch hsuf q hck
        have hqsuf : ∃ pre', ka = pre' ++ ks' := ⟨pre ++ [q], by rw [hpre]; simp⟩
        have hstep : ∀ (m1 : Mem.Memory) (kc' : Nat) (ks1 : List Nat) (v : Int),
            m1.next_character = m.next_character →
            (∀ b, b ≠ a → m1.character b = m.character b) → m1.character a = v → v ≠ 0 →
            Mem.Chain m.next_character kc' ks1 kt → (∃ pre, ka = pre ++ ks1) →
            (match Mem.cycle_message m1 fuel (m.next_character a) with
              | none => none
              | some cur => Mem.decode_vigenere_loop key fuel n m1 cur kc') = some m' →
            (decode_vigenere_loop (ka.map m.character) fuel true (cells.map m.character)
              (ks1.map m.character)).map (v :: ·) = some ((a :: cells).map m'.character) := by
          intro m1 kc' ks1 v hnext hother hav hv hkc' hsuf' hcont
          obtain ⟨hnz1, hmt1, hK1, hlet1⟩ := mem_step_props m m1 a key kt mt cells ka hnext
            hother (by rw [hav]; exact hv) ha hnz' hmt hK hlet hsepa
          have hch1 : Mem.Chain m1.next_character (m.next_character a) cells mt := by
            rw [hnext]; exact hch'
          cases hcm : Mem.cycle_message m1 fuel (m.next_character a) with
          | none => rw [hcm] at hcont; simp at hcont
          | some cur' =>
            rw [hcm] at hcont
            simp only at hcont
            obtain ⟨pre1, cells', hsplit, hcurch, hpre1, hhead⟩ :=
              mem_cycle_message_stop m1 mt hmt1 cells (m.next_character a) fuel cur' hch1 hnz1
                hcm
            have hsub : ∀ b ∈ cells', b ∈ cells := fun b hb => by
              rw [hsplit]; exact List.mem_append_right _ hb
            have hsubp : ∀ b ∈ pre1, b ∈ cells := fun b hb => by
              rw [hsplit]; exact List.mem_append_left _ hb
            have hlen : cells'.length ≤ cells.length := by rw [hsplit]; simp
            have hnd1 : (pre1 ++ cells').Nodup := by rw [← hsplit]; exact hnd'
            have hsep1 : ∀ b ∈ cells', b ∉ ka ∧ b ≠ kt := fun b hb =>
              hsep b (List.mem_cons_of_mem _ (hsub b hb))
            have hkc1 : Mem.Chain m1.next_character kc' ks1 kt := by rw [hnext]; exact hkc'
            obtain ⟨m'', hm'', _, hframe⟩ := mem_decode_loop_frame key kt mt fuel ka hfk n m1
              cells' cur' kc' ks1 hcurch (fun b hb => hnz1 b (hsub b hb)) hmt1 hK1 hlet1 hsep1
              hkc1 hsuf' (by simp at hn; omega) (by simp at hf; omega)
            have hmm : m'' = m' := by
              rw [hm''] at hcont
              exact Option.some.inj hcont
            rw [hmm] at hframe
            have hrec := ih m1 cells' cur' kc' ks1 m' hcurch (fun b hb => hnz1 b (hsub b hb))
              hmt1 hK1 hlet1 hsep1 hkc1 hsuf' (List.Nodup.of_append_right hnd1)
              (by simp at hn; omega) (by simp at hf; omega) hcont
            have hkam : ka.map m1.character = ka.map m.character :=
              map_character_congr m m1 ka (fun b hb => hother b (fun h => hsepa.1 (h ▸ hb)))
            have hks1 : ks1.map m1.character = ks1.map m.character := by
              obtain ⟨p1, hp1⟩ := hsuf'
              exact map_character_congr m m1 ks1 (fun b hb =>
                hother b (fun h => hsepa.1 (h ▸ (by rw [hp1]; exact List.mem_append_right _ hb))))
            have hcm1 : cells.map m.character = pre1.map m1.character ++ cells'.map m1.character := by
              rw [← List.map_append, ← hsplit]
              exact (map_character_congr m m1 cells
                (fun b hb => hother b (fun h => hanot (h ▸ hb)))).symm
            have hpre_skip : ∀ x ∈ pre1.map m1.character, isalpha x = false ∧ x ≠ 0 := by
              intro x hx
              obtain ⟨b, hb, rfl⟩ := List.mem_map.mp hx
              exact ⟨hpre1 b hb, hnz1 b (hsubp b hb)⟩
            have hhead' : cells'.map m1.character = [] ∨
                ∃ c tl, cells'.map m1.character = c :: tl ∧ isalpha c = true := by
              rcases hhead with h | ⟨c, tl, h, hal⟩
              · left; rw [h]; rfl
              · right; exact ⟨m1.character c, tl.map m1.character, by rw [h]; rfl, hal⟩
            have hpre_m' : pre1.map m'.character = pre1.map m1.character :=
              map_character_congr m1 m' pre1 (fun b hb => hframe b (fun h =>
                (List.disjoint_of_nodup_append hnd1) hb h))
            have ha_m' : m'.character a = v := by
              rw [hframe a (fun h => hanot (hsub a h)), hav]
            rw [hkam, hks1] at hrec
            rw [hcm1, decode_vigenere_loop_skip _ _ _ _ _ hpre_skip,
              decode_vigenere_loop_inner _ _ _ _ hhead', hrec]
            simp only [Option.map_some', List.map_cons, ha_m']
            rw [hsplit, List.map_append, hpre_m']
        have hc : character ((q :: ks').map m.character) = m.character q := rfl
        have hnx : next_character ((q :: ks').map m.character) = ks'.map m.character := rfl
        have hqself : Mem.Chain m.next_character q (q :: ks') kt := ⟨rfl, hqch⟩
        rw [List.map_cons]
        unfold decode_vigenere_loop
        simp only [Bool.false_and, Bool.false_eq_true, if_false, ha, hlist, hc, hnx]
        by_cases hU : test_character (m.character a) = UPPER
        · rw [if_pos hU] at hloop ⊢
          obtain ⟨h1, h2, h3⟩ := mem_store_props m a _
            (tmod_26_add_ne_zero (m.character a - UPPER_INT - (m.character q - LOWER_INT) + 26)
              UPPER_INT (by decide))
          exact hstep _ _ ks' _ h1 h2 (by simp [Mem.store]) (tmod_26_add_ne_zero _ UPPER_INT
            (by decide)) hqch hqsuf hloop
        · rw [if_neg hU] at hloop ⊢
          by_cases hL : test_character (m.character a) = LOWER
          · rw [if_pos hL] at hloop ⊢
            obtain ⟨h1, h2, h3⟩ := mem_store_props m a _
              (tmod_26_add_ne_zero
                (m.character a - LOWER_INT - (m.character q - LOWER_INT) + 26)
                LOWER_INT (by decide))
            exact hstep _ _ ks' _ h1 h2 (by simp [Mem.store]) (tmod_26_add_ne_zero _ LOWER_INT
              (by decide)) hqch hqsuf hloop
          · rw [if_neg hL] at hloop ⊢
            exact hstep m q (q :: ks') _ rfl (fun _ _ => rfl) rfl ha hqself ⟨pre, hpre⟩ hloop

/-- The memory embedding and the cell-list embedding of the Vigenere functions compute the
same characters: on a message string and a key string held in disjoint cells, the characters
the memory functions leave in the message cells are the list the cell-list functions
return. -/
theorem mem_vigenere_agrees (m : Mem.Memory) (plaintext key mt kt fuel : Nat)
    (ma ka : List Nat) (hM : Mem.IsString m plaintext ma mt) (hKs : Mem.IsString m key ka kt)
    (hlet : ∃ a ∈ ka, isalpha (m.character a) = true)
    (hsep : ∀ a ∈ ma, a ∉ ka ∧ a ≠ kt) (hnd : ma.Nodup)
    (hfm : ma.length + 1 ≤ fuel) (hfk : 2 * ka.length + 2 ≤ fuel) :
    (∃ m', Mem.encode_vigenere_cipher m plaintext key fuel = some m' ∧
      encode_vigenere_cipher (ma.map m.character) (ka.map m.character) fuel =
        some (ma.map m'.character)) ∧
    (∃ m', Mem.decode_vigenere_cipher m plaintext key fuel = some m' ∧
      decode_vigenere_cipher (ma.map m.character) (ka.map m.character) fuel =
        some (ma.map m'.character)) := by
  constructor
  · obtain ⟨m', hm', _, _⟩ := mem_encode_loop_frame key kt mt fuel ka hfk fuel m ma
      (m.next_character plaintext) (m.next_character key) ka hM.1 hM.2.1 hM.2.2 hKs hlet hsep
      hKs.1 ⟨[], rfl⟩ hfm hfm
    exact ⟨m', hm', mem_encode_loop_sim key kt mt fuel ka hfk fuel m ma
      (m.next_character plaintext) (m.next_character key) ka m' hM.1 hM.2.1 hM.2.2 hKs hlet
      hsep hKs.1 ⟨[], rfl⟩ hnd hfm hfm hm'⟩
  · obtain ⟨m', hm', _, _⟩ := mem_decode_loop_frame key kt mt fuel ka hfk fuel m ma
      (m.next_character plaintext) (m.next_character key) ka hM.1 hM.2.1 hM.2.2 hKs hlet hsep
      hKs.1 ⟨[], rfl⟩ hfm hfm
    exact ⟨m', hm', mem_decode_loop_sim key kt mt fuel ka hfk fuel m ma
      (m.next_character plaintext) (m.next_character key) ka m' hM.1 hM.2.1 hM.2.2 hKs hlet
      hsep hKs.1 ⟨[], rfl⟩ hnd hfm hfm hm'⟩

/-! ## Termination of the Vigenere loops -/

theorem mem_cycle_key_moves_snd (m : Mem.Memory) (key : Nat) :
    ∀ (fuel kc : Nat),
      (Mem.cycle_key_moves m key fuel kc).map Prod.snd = Mem.cycle_key m key fuel kc := by
  intro fuel
  induction fuel with
  | zero => intro kc; rfl
  | succ f ih =>
    intro kc
    unfold Mem.cycle_key_moves Mem.cycle_key
    split_ifs
    · rfl
    · rw [Option.map_map, ← ih]; rfl
    · rw [Option.map_map, ← ih]; rfl

theorem mem_encode_loop_unfold (key fuel n : Nat) (m : Mem.Memory) (cur kc : Nat) :
    Mem.encode_vigenere_loop key fuel (n + 1) m cur kc =
      if m.character cur = 0 then some m
      else (Mem.encode_vigenere_body key fuel m cur kc).bind
        (fun st => Mem.encode_vigenere_loop key fuel n st.1 st.2.1 st.2.2) := by
  rw [Mem.encode_vigenere_loop]
  unfold Mem.encode_vigenere_body
  split_ifs
  · rfl
  all_goals
    cases Mem.cycle_key m key fuel kc with
    | none => rfl
    | some q =>
      simp only
      split <;> simp_all

theorem mem_decode_loop_unfold (key fuel n : Nat) (m : Mem.Memory) (cur kc : Nat) :
    Mem.decode_vigenere_loop key fuel (n + 1) m cur kc =
      if m.character cur = 0 then some m
      else (Mem.decode_vigenere_body key fuel m cur kc).bind
        (fun st => Mem.decode_vigenere_loop key fuel n st.1 st.2.1 st.2.2) := by
  rw [Mem.decode_vigenere_loop]
  unfold Mem.decode_vigenere_body
  split_ifs
  · rfl
  all_goals
    cases Mem.cycle_key m key fuel kc with
    | none => rfl
    | some q =>
      simp only
      split <;> simp_all

theorem mem_cycle_key_moves_find (m : Mem.Memory) (key kt q : Nat) (ks' : List Nat)
    (hq : isalpha (m.character q) = true) :
    ∀ (pre : List Nat) (p fuel : Nat), Mem.Chain m.next_character p (pre ++ q :: ks') kt →
      (∀ a ∈ pre, isalpha (m.character a) = false ∧ m.character a ≠ 0) →
      pre.length + 1 ≤ fuel → Mem.cycle_key_moves m key fuel p = some (pre.length, q) := by
  intro pre
  induction pre with
  | nil =>
    intro p fuel hch _ hf
    have hp : p = q := hch.1
    obtain ⟨f, rfl⟩ : ∃ f, fuel = f + 1 := ⟨fuel - 1, by simp at hf; omega⟩
    simp [Mem.cycle_key_moves, hp, hq]
  | cons a pre ih =>
    intro p fuel hch hpre hf
    have hp : p = a := hch.1
    obtain ⟨f, rfl⟩ : ∃ f, fuel = f + 1 := ⟨fuel - 1, by simp at hf; omega⟩
    have ha := hpre a (List.mem_cons_self _ _)
    have hrec := ih (m.next_character a) f hch.2
      (fun b hb => hpre b (List.mem_cons_of_mem _ hb)) (by simp at hf ⊢; omega)
    simp [Mem.cycle_key_moves, hp, ha.1, ha.2, hrec]

theorem mem_cycle_key_moves_wrap (m : Mem.Memory) (key kt : Nat) (hkt : m.character kt = 0) :
    ∀ (ks : List Nat) (p fuel : Nat), Mem.Chain m.next_character p ks kt →
      (∀ a ∈ ks, isalpha (m.character a) = false ∧ m.character a ≠ 0) →
      ks.length + 1 ≤ fuel →
      Mem.cycle_key_moves m key fuel p =
        (Mem.cycle_key_moves m key (fuel - ks.length - 1) (m.next_character key)).map
          (fun r => (r.1 + (ks.length + 1), r.2)) := by
  intro ks
  induction ks with
  | nil =>
    intro p fuel hch _ hf
    have hp : p = kt := hch
    obtain ⟨f, rfl⟩ : ∃ f, fuel = f + 1 := ⟨fuel - 1, by simp at hf; omega⟩
    have h0 : isalpha 0 = false := by decide
    simp [Mem.cycle_key_moves, hp, hkt, h0]
  | cons a ks ih =>
    intro p fuel hch hks hf
    have hp : p = a := hch.1
    obtain ⟨f, rfl⟩ : ∃ f, fuel = f + 1 := ⟨fuel - 1, by simp at hf; omega⟩
    have ha := hks a (List.mem_cons_self _ _)
    have hrec := ih (m.next_character a) f hch.2
      (fun b hb => hks b (List.mem_cons_of_mem _ hb)) (by simp at hf ⊢; omega)
    have hsub : f + 1 - (a :: ks).length - 1 = f - ks.length - 1 := by simp
    simp only [Mem.cycle_key_moves, hp, ha.1, ha.2, hrec, hsub, Option.map_map]
    simp [Function.comp_def, Nat.add_assoc]

theorem mem_split_first_letter (m : Mem.Memory) :
    ∀ ks : List Nat, (∀ a ∈ ks, m.character a ≠ 0) →
      (∃ pre q ks', ks = pre ++ q :: ks' ∧
        (∀ a ∈ pre, isalpha (m.character a) = false ∧ m.character a ≠ 0) ∧
        isalpha (m.character q) = true) ∨
      (∀ a ∈ ks, isalpha (m.character a) = false ∧ m.character a ≠ 0) := by
  intro ks
  induction ks with
  | nil => intro _; right; simp
  | cons a ks ih =>
    intro hnz
    by_cases hal : isalpha (m.character a) = true
    · left; exact ⟨[], a, ks, rfl, by simp, hal⟩
    · have ha : isalpha (m.character a) = false ∧ m.character a ≠ 0 :=
        ⟨by simpa using hal, hnz a (List.mem_cons_self _ _)⟩
      rcases ih (fun b hb => hnz b (List.mem_cons_of_mem _ hb)) with
        ⟨pre, q, ks', hks, hpre, hq⟩ | hnone
      · left
        refine ⟨a :: pre, q, ks', by rw [hks]; rfl, ?_, hq⟩
        intro b hb
        rcases List.mem_cons.mp hb with hba | hb
        · rw [hba]; exact ha
        · exact hpre b hb
      · right
        intro b hb
        rcases List.mem_cons.mp hb with hba | hb
        · rw [hba]; exact ha
        · exact hnone b hb

/-- From every cell of a key string that has a letter, the key-skipping loop makes at most as
many cursor moves as the key has rendered cells and ends at a cell that holds a letter. -/
theorem mem_cycle_key_moves_ok (m : Mem.Memory) (key kt : Nat) (ka : List Nat)
    (hK : Mem.IsString m key ka kt) (hlet : ∃ a ∈ ka, isalpha (m.character a) = true)
    (pre0 ks : List Nat) (kc fuel : Nat) (hsuf : ka = pre0 ++ ks)
    (hch : Mem.Chain m.next_character kc ks kt) (hf : ka.length + 1 ≤ fuel) :
    ∃ n q, Mem.cycle_key_moves m key fuel kc = some (n, q) ∧ n ≤ ka.length ∧
      isalpha (m.character q) = true := by
  obtain ⟨hKch, hKnz, hkt⟩ := hK
  have hlen : ka.length = pre0.length + ks.length := by rw [hsuf]; simp
  have hnzs : ∀ a ∈ ks, m.character a ≠ 0 := fun a ha =>
    hKnz a (by rw [hsuf]; exact List.mem_append_right _ ha)
  have hnzp : ∀ a ∈ pre0, m.character a ≠ 0 := fun a ha =>
    hKnz a (by rw [hsuf]; exact List.mem_append_left _ ha)
  rcases mem_split_first_letter m ks hnzs with ⟨pre, q, ks', hks, hpre, hq⟩ | hnone
  · have hl : ks.length = pre.length + (ks'.length + 1) := by rw [hks]; simp
    refine ⟨pre.length, q, ?_, by omega, hq⟩
    rw [hks] at hch
    exact mem_cycle_key_moves_find m key kt q ks' hq pre kc fuel hch hpre (by omega)
  · rcases mem_split_first_letter m pre0 hnzp with ⟨a, q, b, hab, ha, hq⟩ | hnone0
    · have hl : pre0.length = a.length + (b.length + 1) := by rw [hab]; simp
      have hka : ka = a ++ q :: (b ++ ks) := by rw [hsuf, hab]; simp
      refine ⟨a.length + (ks.length + 1), q, ?_, by omega, hq⟩
      rw [mem_cycle_key_moves_wrap m key kt hkt ks kc fuel hch hnone (by omega)]
      rw [hka] at hKch
      rw [mem_cycle_key_moves_find m key kt q (b ++ ks) hq a (m.next_character key)
        (fuel - ks.length - 1) hKch ha (by omega)]
      rfl
    · exfalso
      obtain ⟨x, hx, hxal⟩ := hlet
      rw [hsuf] at hx
      rcases List.mem_append.mp hx with hx | hx
      · rw [(hnone0 x hx).1] at hxal; exact absurd hxal (by decide)
      · rw [(hnone x hx).1] at hxal; exact absurd hxal (by decide)

/-- What is left of an outer-loop body after the cell `a` was handled, leaving memory `m1`:
the message-skipping loop ends at a cell strictly nearer the terminator, in a running
state. -/
theorem mem_body_rest (m m1 : Mem.Memory) (a key kt mt kc fuel : Nat)
    (cells ka pre1 ks1 : List Nat)
    (hnext : m1.next_character = m.next_character)
    (hother : ∀ b, b ≠ a → m1.character b = m.character b) (ha1 : m1.character a ≠ 0)
    (ha : m.character a ≠ 0) (hnz : ∀ b ∈ cells, m.character b ≠ 0)
    (hmt : m.character mt = 0) (hK : Mem.IsString m key ka kt)
    (hlet : ∃ b ∈ ka, isalpha (m.character b) = true)
    (hsep : ∀ b ∈ a :: cells, b ∉ ka ∧ b ≠ kt)
    (hch : Mem.Chain m.next_character (m.next_character a) cells mt)
    (hsuf : ka = pre1 ++ ks1) (hkc : Mem.Chain m.next_character kc ks1 kt)
    (hf : cells.length + 1 ≤ fuel) :
    ∃ m2 cells2 cur2 kc2,
      (match Mem.cycle_message m1 fuel (m.next_character a) with
        | none => none
        | some cur => some (m1, cur, kc)) = some (m2, cur2, kc2) ∧
      Mem.Running m2 key ka kt mt cells2 cur2 kc2 ∧ cells2.length < (a :: cells).length := by
  obtain ⟨hnz1, hmt1, hK1, hlet1⟩ := mem_step_props m m1 a key kt mt cells ka hnext hother
    ha1 ha hnz hmt hK hlet (hsep a (List.mem_cons_self _ _))
  have hch1 : Mem.Chain m1.next_character (m.next_character a) cells mt := by
    rw [hnext]; exact hch
  obtain ⟨cur, cells', hcur, hcurch, pre, hpre⟩ :=
    mem_cycle_message_ok m1 mt hmt1 cells (m.next_character a) fuel hch1 hf
  have hsub : ∀ b ∈ cells', b ∈ cells := fun b hb => by
    rw [hpre]; exact List.mem_append_right _ hb
  have hlen : cells'.length ≤ cells.length := by rw [hpre]; simp
  refine ⟨m1, cells', cur, kc, by rw [hcur], ?_, by simp; omega⟩
  exact ⟨hcurch, fun b hb => hnz1 b (hsub b hb), hmt1, hK1, hlet1,
    fun b hb => hsep b (List.mem_cons_of_mem _ (hsub b hb)), pre1, ks1, hsuf,
    by rw [hnext]; exact hkc⟩

theorem mem_encode_body_progress (key kt mt fuel : Nat) (ka : List Nat) (m : Mem.Memory)
    (cells : List Nat) (cur kc : Nat) (hrun : Mem.Running m key ka kt mt cells cur kc)
    (hcur : m.character cur ≠ 0) (hfm : cells.length ≤ fuel)
    (hfk : 2 * ka.length + 2 ≤ fuel) :
    ∃ m2 cells2 cur2 kc2, Mem.encode_vigenere_body key fuel m cur kc = some (m2, cur2, kc2) ∧
      Mem.Running m2 key ka kt mt cells2 cur2 kc2 ∧ cells2.length < cells.length := by
  obtain ⟨hch, hnz, hmt, hK, hlet, hsep, pre, ks, hsuf, hkch⟩ := hrun
  cases cells with
  | nil =>
    have h : cur = mt := hch
    rw [h] at hcur
    exact absurd hmt hcur
  | cons a cells =>
    have hca : cur = a := hch.1
    have ha : m.character a ≠ 0 := hnz a (List.mem_cons_self _ _)
    have hnz' : ∀ b ∈ cells, m.character b ≠ 0 := fun b hb =>
      hnz b (List.mem_cons_of_mem _ hb)
    obtain ⟨q, ks', hq, _, hqch, preq, hpreq⟩ :=
      mem_cycle_key_ok m key kt ka hK hlet ks kc fuel ⟨pre, hsuf⟩ hkch hfk
    have hqsuf : ka = (preq ++ [q]) ++ ks' := by rw [hpreq]; simp
    have hqself : Mem.Chain m.next_character q (q :: ks') kt := ⟨rfl, hqch⟩
    rw [hca]
    unfold Mem.encode_vigenere_body
    simp only [hq]
    by_cases hU : test_character (m.character a) = UPPER
    · rw [if_pos hU]
      obtain ⟨h1, h2, h3⟩ := mem_store_props m a _
        (tmod_26_add_ne_zero (m.character a - UPPER_INT + (m.character q - LOWER_INT) + 26)
          UPPER_INT (by decide))
      exact mem_body_rest m _ a key kt mt _ fuel cells ka _ ks' h1 h2 h3 ha hnz' hmt hK hlet
        hsep hch.2 hqsuf hqch (by simp at hfm; omega)
    · rw [if_neg hU]
      by_cases hL : test_character (m.character a) = LOWER
      · rw [if_pos hL]
        obtain ⟨h1, h2, h3⟩ := mem_store_props m a _
          (tmod_26_add_ne_zero (m.character a - LOWER_INT + (m.character q - LOWER_INT) + 26)
            LOWER_INT (by decide))
        exact mem_body_rest m _ a key kt mt _ fuel cells ka _ ks' h1 h2 h3 ha hnz' hmt hK hlet
          hsep hch.2 hqsuf hqch (by simp at hfm; omega)
      · rw [if_neg hL]
        exact mem_body_rest m m a key kt mt q fuel cells ka preq (q :: ks') rfl
          (fun _ _ => rfl) ha ha hnz' hmt hK hlet hsep hch.2 hpreq hqself
          (by simp at hfm; omega)

theorem mem_decode_body_progress (key kt mt fuel : Nat) (ka : List Nat) (m : Mem.Memory)
    (cells : List Nat) (cur kc : Nat) (hrun : Mem.Running m key ka kt mt cells cur kc)
    (hcur : m.character cur ≠ 0) (hfm : cells.length ≤ fuel)
    (hfk : 2 * ka.length + 2 ≤ fuel) :
    ∃ m2 cells2 cur2 kc2, Mem.decode_vigenere_body key fuel m cur kc = some (m2, cur2, kc2) ∧
      Mem.Running m2 key ka kt mt cells2 cur2 kc2 ∧ cells2.length < cells.length := by
  obtain ⟨hch, hnz, hmt, hK, hlet, hsep, pre, ks, hsuf, hkch⟩ := hrun
  cases cells with
  | nil =>
    have h : cur = mt := hch
    rw [h] at hcur
    exact absurd hmt hcur
  | cons a cells =>
    have hca : cur = a := hch.1
    have ha : m.character a ≠ 0 := hnz a (List.mem_cons_self _ _)
    have hnz' : ∀ b ∈ cells, m.character b ≠ 0 := fun b hb =>
      hnz b (List.mem_cons_of_mem _ hb)
    obtain ⟨q, ks', hq, _, hqch, preq, hpreq⟩ :=
      mem_cycle_key_ok m key kt ka hK hlet ks kc fuel ⟨pre, hsuf⟩ hkch hfk
    have hqsuf : ka = (preq ++ [q]) ++ ks' := by rw [hpreq]; simp
    have hqself : Mem.Chain m.next_character q (q :: ks') kt := ⟨rfl, hqch⟩
    rw [hca]
    unfold Mem.decode_vigenere_body
    simp only [hq]
    by_cases hU : test_character (m.character a) = UPPER
    · rw [if_pos hU]
      obtain ⟨h1, h2, h3⟩ := mem_store_props m a _
        (tmod_26_add_ne_zero (m.character a - UPPER_INT - (m.character q - LOWER_INT) + 26)
          UPPER_INT (by decide))
      exact mem_body_rest m _ a key kt mt _ fuel cells ka _ ks' h1 h2 h3 ha hnz' hmt hK hlet
        hsep hch.2 hqsuf hqch (by simp at hfm; omega)
    · rw [if_neg hU]
      by_cases hL : test_character (m.character a) = LOWER
      · rw [if_pos hL]
        obtain ⟨h1, h2, h3⟩ := mem_store_props m a _
          (tmod_26_add_ne_zero (m.character a - LOWER_INT - (m.character q - LOWER_INT) + 26)
            LOWER_INT (by decide))
        exact mem_body_rest m _ a key kt mt _ fuel cells ka _ ks' h1 h2 h3 ha hnz' hmt hK hlet
          hsep hch.2 hqsuf hqch (by simp at hfm; omega)
      · rw [if_neg hL]
        exact mem_body_rest m m a key kt mt q fuel cells ka preq (q :: ks') rfl
          (fun _ _ => rfl) ha ha hnz' hmt hK hlet hsep hch.2 hpreq hqself
          (by simp at hfm; omega)

/-- C21. Termination with a usable key: in every memory in which the message string renders
the cells `ma` and the key string the cells `ka`, the key has a letter and no message cell is
a key cell, `encode_vigenere_cipher` and `decode_vigenere_cipher` return (given enough fuel
for their loops).  The entry of the outer loop is a running state; in every running state the
key-skipping loop ends at a cell holding a letter after at most `ka.length` cursor moves, so
within the key length plus one; and in every running state whose message cursor is not at the
terminator, the body of the outer loop returns a running state whose message cursor is
strictly nearer the terminator.  The bodies are the bodies of the two outer loops. -/
theorem vigenere_terminates (m : Mem.Memory) (plaintext key mt kt fuel : Nat)
    (ma ka : List Nat) (hM : Mem.IsString m plaintext ma mt) (hKs : Mem.IsString m key ka kt)
    (hlet : ∃ a ∈ ka, isalpha (m.character a) = true)
    (hsep : ∀ a ∈ ma, a ∉ ka ∧ a ≠ kt)
    (hfm : ma.length + 1 ≤ fuel) (hfk : 2 * ka.length + 2 ≤ fuel) :
    (∃ m', Mem.encode_vigenere_cipher m plaintext key fuel = some m') ∧
    (∃ m', Mem.decode_vigenere_cipher m plaintext key fuel = some m') ∧
    Mem.Running m key ka kt mt ma (m.next_character plaintext) (m.next_character key) ∧
    (∀ (m1 : Mem.Memory) (cells : List Nat) (cur kc : Nat),
      Mem.Running m1 key ka kt mt cells cur kc →
      ∃ n q, Mem.cycle_key_moves m1 key fuel kc = some (n, q) ∧
        Mem.cycle_key m1 key fuel kc = some q ∧ n ≤ ka.length ∧
        isalpha (m1.character q) = true) ∧
    (∀ (m1 : Mem.Memory) (cells : List Nat) (cur kc : Nat),
      Mem.Running m1 key ka kt mt cells cur kc → cells.length ≤ ma.length →
      m1.character cur ≠ 0 →
      (∃ m2 cells2 cur2 kc2, Mem.encode_vigenere_body key fuel m1 cur kc = some (m2, cur2, kc2) ∧
        Mem.Running m2 key ka kt mt cells2 cur2 kc2 ∧ cells2.length < cells.length) ∧
      (∃ m2 cells2 cur2 kc2, Mem.decode_vigenere_body key fuel m1 cur kc = some (m2, cur2, kc2) ∧
        Mem.Running m2 key ka kt mt cells2 cur2 kc2 ∧ cells2.length < cells.length)) ∧
    (∀ (n : Nat) (m1 : Mem.Memory) (cur kc : Nat),
      Mem.encode_vigenere_loop key fuel (n + 1) m1 cur kc =
        (if m1.character cur = 0 then some m1
        else (Mem.encode_vigenere_body key fuel m1 cur kc).bind
          (fun st => Mem.encode_vigenere_loop key fuel n st.1 st.2.1 st.2.2)) ∧
      Mem.decode_vigenere_loop key fuel (n + 1) m1 cur kc =
        (if m1.character cur = 0 then some m1
        else (Mem.decode_vigenere_body key fuel m1 cur kc).bind
          (fun st => Mem.decode_vigenere_loop key fuel n st.1 st.2.1 st.2.2))) := by
  refine ⟨?_, ?_, ?_, ?_, ?_, ?_⟩
  · obtain ⟨m', hm', _, _⟩ := mem_encode_loop_frame key kt mt fuel ka hfk fuel m ma
      (m.next_character plaintext) (m.next_character key) ka hM.1 hM.2.1 hM.2.2 hKs hlet hsep
      hKs.1 ⟨[], rfl⟩ hfm hfm
    exact ⟨m', hm'⟩
  · obtain ⟨m', hm', _, _⟩ := mem_decode_loop_frame key kt mt fuel ka hfk fuel m ma
      (m.next_character plaintext) (m.next_character key) ka hM.1 hM.2.1 hM.2.2 hKs hlet hsep
      hKs.1 ⟨[], rfl⟩ hfm hfm
    exact ⟨m', hm'⟩
  · exact ⟨hM.1, hM.2.1, hM.2.2, hKs, hlet, hsep, [], ka, rfl, hKs.1⟩
  · intro m1 cells cur kc hrun
    obtain ⟨_, _, _, hK1, hlet1, _, pre, ks, hsuf, hkch⟩ := hrun
    obtain ⟨n, q, hnq, hn, hq⟩ := mem_cycle_key_moves_ok m1 key kt ka hK1 hlet1 pre ks kc fuel
      hsuf hkch (by omega)
    refine ⟨n, q, hnq, ?_, hn, hq⟩
    rw [← mem_cycle_key_moves_snd, hnq]
    rfl
  · intro m1 cells cur kc hrun hlen hcur
    exact ⟨mem_encode_body_progress key kt mt fuel ka m1 cells cur kc hrun hcur (by omega) hfk,
      mem_decode_body_progress key kt mt fuel ka m1 cells cur kc hrun hcur (by omega) hfk⟩
  · intro n m1 cur kc
    exact ⟨mem_encode_loop_unfold key fuel n m1 cur kc,
      mem_decode_loop_unfold key fuel n m1 cur kc⟩

theorem vigenere_terminates_witness :
    Mem.IsString Mem.demo 1 [2, 3, 4] 5 ∧ Mem.IsString Mem.demo 6 [7, 8] 9 ∧
    (∃ a ∈ [7, 8], isalpha (Mem.demo.character a) = true) ∧
    (∀ a ∈ [2, 3, 4], a ∉ [7, 8] ∧ a ≠ 9) ∧
    (∃ m', Mem.encode_vigenere_cipher Mem.demo 1 6 6 = some m') ∧
    (∃ m', Mem.decode_vigenere_cipher Mem.demo 1 6 6 = some m') ∧
    Mem.Running Mem.demo 6 [7, 8] 9 5 [2, 3, 4] (Mem.demo.next_character 1)
      (Mem.demo.next_character 6) ∧
    Mem.cycle_key_moves Mem.demo 6 6 7 = some (0, 7) ∧
    Mem.cycle_key_moves Mem.demo 6 6 9 = some (1, 7) ∧
    (Mem.encode_vigenere_body 6 6 Mem.demo 2 7).map (fun st => (st.2.1, st.2.2)) =
      some (3, 8) ∧
    (Mem.decode_vigenere_body 6 6 Mem.demo 2 7).map (fun st => (st.2.1, st.2.2)) =
      some (3, 8) := by
  have hM : Mem.IsString Mem.demo 1 [2, 3, 4] 5 := ⟨⟨rfl, rfl, rfl, rfl⟩, by decide, rfl⟩
  have hK : Mem.IsString Mem.demo 6 [7, 8] 9 := ⟨⟨rfl, rfl, rfl⟩, by decide, rfl⟩
  have hlet : ∃ a ∈ [7, 8], isalpha (Mem.demo.character a) = true := by decide
  have hsep : ∀ a ∈ [2, 3, 4], a ∉ [7, 8] ∧ a ≠ 9 := by decide
  have h := vigenere_terminates Mem.demo 1 6 5 9 6 [2, 3, 4] [7, 8] hM hK hlet hsep
    (by decide) (by decide)
  exact ⟨hM, hK, hlet, hsep, h.1, h.2.1, h.2.2.1, by decide, by decide, by decide, by decide⟩

end Cipher
